import Mathlib

/-!
Verification of the go-config aggregation library against its specification.

The Go sources are shallowly embedded:
  * Go strings are lists of characters (`GoStr`); helper functions mirror the
    `strings` package operations the code uses.
  * `map[string]any` values are association lists with unique keys
    (`GoTree`); Go map assignment is `aset`, Go map indexing is `alookup`.
    Go iterates maps in unspecified order; the embedding fixes list order,
    which is unobservable through the lookup-based statements proved here.
  * the dynamic `any` values flowing through the library are the inductive
    `GoVal`: strings, booleans, ints, floats (exact rationals), durations
    (nanosecond counts), lists, string-keyed maps, and nil.  The
    `map[any]any` shape accepted by `toStringMap` never arises for the
    string-keyed generic trees the claims quantify over and is not
    representable here; its branch is noted at `toStringMap`.
  * fallible Go functions returning `(T, error)` become `Except String T`
    where only the presence/shape of the error matters, or a dedicated
    error inductive where the claims talk about error contents.
-/

set_option maxRecDepth 100000

namespace GoConfig

/-- Go strings, as lists of characters (runes). -/
abbrev GoStr := List Char

/-- Models `unicode.IsSpace` on the whitespace characters relevant here:
the ASCII space class plus NEL and NBSP.  (The full Unicode space table is
not modelled; all claims only involve ASCII input.) -/
def goIsSpace (c : Char) : Bool :=
  c = ' ' ∨ c = '\t' ∨ c = '\n' ∨ c = '\r' ∨ c = '\x0b' ∨ c = '\x0c' ∨
    c = '\x85' ∨ c = '\xa0'

/-- Models `strings.TrimLeftFunc s unicode.IsSpace`. -/
def goTrimLeftSpace (s : GoStr) : GoStr := s.dropWhile goIsSpace

/-- Models trimming trailing characters satisfying a predicate
(`strings.TrimRight` / `strings.TrimRightFunc`). -/
def goTrimRightP (p : Char → Bool) (s : GoStr) : GoStr :=
  (s.reverse.dropWhile p).reverse

/-- Models `strings.TrimSpace`. -/
def goTrimSpace (s : GoStr) : GoStr :=
  goTrimRightP goIsSpace (goTrimLeftSpace s)

/-- Models `strings.ToLower` (simple case mapping; agrees with Go on ASCII,
which is all the claims exercise). -/
def goToLower (s : GoStr) : GoStr := s.map Char.toLower

/-- Models `strings.ToUpper` (simple case mapping, ASCII-faithful). -/
def goToUpper (s : GoStr) : GoStr := s.map Char.toUpper

/-- `strings.ToLower` at the `String` level. -/
def goToLowerS (s : String) : String := String.mk (goToLower s.data)

/-- Models `strings.Split s sep` for a one-character separator: splits on
every occurrence, keeping empty fields (`Split "" sep = [""]`). -/
def splitOnChar (sep : Char) : GoStr → List GoStr
  | [] => [[]]
  | c :: rest =>
      let r := splitOnChar sep rest
      if c = sep then [] :: r
      else match r with
        | [] => [[c]]
        | h :: t => (c :: h) :: t

/-- Go map indexing `m[k]` for an association list. -/
def alookup {α : Type} : List (String × α) → String → Option α
  | [], _ => none
  | (k, v) :: rest, key => if k = key then some v else alookup rest key

/-- Go map assignment `m[k] = v` for an association list: overwrite the
existing entry for `k`, else append a fresh one. -/
def aset {α : Type} : List (String × α) → String → α → List (String × α)
  | [], k, v => [(k, v)]
  | (k', v') :: rest, k, v =>
      if k' = k then (k, v) :: rest else (k', v') :: aset rest k v

/-- Key list of an association list. -/
def akeys {α : Type} (m : List (String × α)) : List String := m.map Prod.fst

theorem alookup_aset_self {α : Type} (m : List (String × α)) (k : String) (v : α) :
    alookup (aset m k v) k = some v := by
  induction m with
  | nil => simp [aset, alookup]
  | cons h t ih =>
      obtain ⟨k', v'⟩ := h
      by_cases hk : k' = k
      · simp [aset, hk, alookup]
      · simp [aset, hk, alookup, ih]

theorem alookup_aset_ne {α : Type} (m : List (String × α)) (k k' : String) (v : α)
    (h : k' ≠ k) : alookup (aset m k v) k' = alookup m k' := by
  have hks : ¬ k = k' := fun hh => h hh.symm
  induction m with
  | nil => simp [aset, alookup, hks]
  | cons hd t ih =>
      obtain ⟨k0, v0⟩ := hd
      by_cases h0 : k0 = k
      · subst h0
        simp [aset, alookup, hks]
      · simp [aset, h0, alookup, ih]

theorem mem_akeys_aset {α : Type} (m : List (String × α)) (k : String) (v : α)
    (k' : String) : k' ∈ akeys (aset m k v) ↔ k' ∈ akeys m ∨ k' = k := by
  induction m with
  | nil => simp [aset, akeys]
  | cons hd t ih =>
      obtain ⟨k0, v0⟩ := hd
      by_cases h0 : k0 = k
      · subst h0
        simp [aset, akeys]
        tauto
      · simp only [aset, if_neg h0, akeys, List.map_cons, List.mem_cons]
        simp only [akeys] at ih
        rw [ih]
        tauto

theorem nodup_akeys_aset {α : Type} (m : List (String × α)) (k : String) (v : α)
    (h : (akeys m).Nodup) : (akeys (aset m k v)).Nodup := by
  induction m with
  | nil => simp [aset, akeys]
  | cons hd t ih =>
      obtain ⟨k0, v0⟩ := hd
      simp only [akeys, List.map_cons, List.nodup_cons] at h
      by_cases h0 : k0 = k
      · subst h0
        simp only [aset, if_pos rfl, akeys, List.map_cons, List.nodup_cons]
        simpa using h
      · simp only [aset, if_neg h0, akeys, List.map_cons, List.nodup_cons]
        refine ⟨?_, ih h.2⟩
        intro hmem
        rcases (mem_akeys_aset t k v k0).mp hmem with h1 | h1
        · exact h.1 h1
        · exact h0 h1

theorem alookup_isSome_iff {α : Type} (m : List (String × α)) (k : String) :
    (alookup m k).isSome ↔ k ∈ akeys m := by
  induction m with
  | nil => simp [alookup, akeys]
  | cons hd t ih =>
      obtain ⟨k0, v0⟩ := hd
      by_cases h0 : k0 = k
      · subst h0
        simp [alookup, akeys]
      · have h1 : ¬ k = k0 := fun hh => h0 hh.symm
        simp [alookup, akeys, h0, ih, h1]

/-- The dynamic (`any`) values the library passes around. -/
inductive GoVal where
  | vNull
  | vStr (s : String)
  | vBool (b : Bool)
  | vInt (n : Int)
  | vFloat (q : ℚ)
  | vDur (ns : Int)
  | vList (xs : List GoVal)
  | vMap (m : List (String × GoVal))
deriving Repr

/-- A generic configuration tree: `map[string]any`. -/
abbrev GoTree := List (String × GoVal)

/-- Models `toStringMap`: returns the underlying map when the value is a
`map[string]any`.  The `map[any]any` branch of the Go function (which
converts, dropping non-string keys) has no counterpart because `GoVal` only
represents string-keyed maps, the shape every claim quantifies over. -/
def toStringMap : GoVal → Option GoTree
  | .vMap m => some m
  | _ => none

/-- Models `DefaultMergeStrategy.Merge`.  The Go method iterates over the
entries of `src`; for a key whose values are both string maps it merges
recursively, otherwise the `src` value overwrites.  The `error` return is
threaded exactly as in the source (only a recursive call could produce one). -/
def mergeGo (dst : GoTree) : GoTree → Except String GoTree
  | [] => .ok dst
  | (k, v) :: rest =>
      match alookup dst k with
      | some existing =>
          match toStringMap existing, h2 : toStringMap v with
          | some m1, some m2 =>
              match mergeGo m1 m2 with
              | .error e => .error e
              | .ok merged => mergeGo (aset dst k (.vMap merged)) rest
          | _, _ => mergeGo (aset dst k v) rest
      | none => mergeGo (aset dst k v) rest
termination_by src => sizeOf src
decreasing_by
  all_goals simp_wf
  all_goals try (cases v <;> simp_all [toStringMap])
  all_goals omega

theorem mergeGo_nil (dst : GoTree) : mergeGo dst [] = .ok dst := by
  simp [mergeGo]

theorem mergeGo_cons_none (dst rest : GoTree) (k : String) (v : GoVal)
    (hdk : alookup dst k = none) :
    mergeGo dst ((k, v) :: rest) = mergeGo (aset dst k v) rest := by
  simp [mergeGo, hdk]

theorem mergeGo_cons_notboth (dst rest : GoTree) (k : String) (v existing : GoVal)
    (hdk : alookup dst k = some existing)
    (hnb : toStringMap existing = none ∨ toStringMap v = none) :
    mergeGo dst ((k, v) :: rest) = mergeGo (aset dst k v) rest := by
  rcases hnb with hnb | hnb
  · simp [mergeGo, hdk, hnb]
  · cases h1 : toStringMap existing with
    | none => simp [mergeGo, hdk, h1]
    | some m1 => simp [mergeGo, hdk, h1, hnb]

theorem mergeGo_cons_both (dst rest : GoTree) (k : String) (m1 m2 merged : GoTree)
    (hdk : alookup dst k = some (.vMap m1))
    (hm : mergeGo m1 m2 = .ok merged) :
    mergeGo dst ((k, .vMap m2) :: rest) =
      mergeGo (aset dst k (.vMap merged)) rest := by
  simp [mergeGo, hdk, toStringMap, hm]

theorem toStringMap_eq_some (v : GoVal) (m : GoTree) (h : toStringMap v = some m) :
    v = .vMap m := by
  cases v with
  | vMap mm =>
      simp only [toStringMap, Option.some.injEq] at h
      rw [h]
  | vNull => simp [toStringMap] at h
  | vStr s => simp [toStringMap] at h
  | vBool b => simp [toStringMap] at h
  | vInt n => simp [toStringMap] at h
  | vFloat q => simp [toStringMap] at h
  | vDur ns => simp [toStringMap] at h
  | vList xs => simp [toStringMap] at h

theorem mergeGo_ok (dst src : GoTree) : ∃ out, mergeGo dst src = .ok out := by
  induction dst, src using mergeGo.induct with
  | case1 dst => exact ⟨dst, mergeGo_nil dst⟩
  | case2 dst k v rest existing hdk m1 m2 hm1 hm2 e hme ih =>
      obtain ⟨out1, hout1⟩ := ih
      rw [hout1] at hme
      cases hme
  | case3 dst k v rest existing hdk m1 m2 hm1 hm2 merged hme ih1 ih2 =>
      obtain ⟨out, hout⟩ := ih2
      refine ⟨out, ?_⟩
      have hv : v = .vMap m2 := by cases v <;> simp_all [toStringMap]
      subst hv
      have hex : existing = .vMap m1 := by cases existing <;> simp_all [toStringMap]
      subst hex
      rw [mergeGo_cons_both dst rest k m1 m2 merged hdk hme]
      exact hout
  | case4 dst k v rest existing hdk hnb ih =>
      obtain ⟨out, hout⟩ := ih
      refine ⟨out, ?_⟩
      rw [mergeGo_cons_notboth dst rest k v existing hdk ?_]
      · exact hout
      · cases he : toStringMap existing with
        | none => exact Or.inl rfl
        | some mm =>
            cases hv : toStringMap v with
            | none => exact Or.inr rfl
            | some mv => exact absurd (hnb mm mv he hv) not_false
  | case5 dst k v rest hdk ih =>
      obtain ⟨out, hout⟩ := ih
      exact ⟨out, by rw [mergeGo_cons_none dst rest k v hdk]; exact hout⟩

theorem alookup_eq_none_of_not_mem {α : Type} (m : List (String × α)) (k : String)
    (h : k ∉ akeys m) : alookup m k = none := by
  cases hh : alookup m k with
  | none => rfl
  | some v =>
      exact absurd ((alookup_isSome_iff m k).mp (by simp [hh])) h

/-- Per-key characterisation of `mergeGo`: how the merged tree answers every
lookup, in terms of the two input trees.  Only `src` needs unique keys
(`dst` is accessed through lookups alone). -/
theorem mergeGo_char (src : GoTree) (hs : (akeys src).Nodup) :
    ∀ dst out, mergeGo dst src = .ok out → ∀ key,
      (alookup src key = none → alookup out key = alookup dst key) ∧
      (∀ v, alookup src key = some v →
        (∀ m1 m2, alookup dst key = some (.vMap m1) → v = .vMap m2 →
          ∃ sub, mergeGo m1 m2 = .ok sub ∧ alookup out key = some (.vMap sub)) ∧
        ((¬ ∃ m1 m2, alookup dst key = some (.vMap m1) ∧ v = .vMap m2) →
          alookup out key = some v)) := by
  induction src with
  | nil =>
      intro dst out h key
      rw [mergeGo_nil] at h
      cases h
      exact ⟨fun _ => rfl, fun v hv => by cases hv⟩
  | cons hd rest ih =>
      obtain ⟨k, v⟩ := hd
      intro dst out h key
      simp only [akeys, List.map_cons, List.nodup_cons] at hs
      have hrest : alookup rest k = none :=
        alookup_eq_none_of_not_mem rest k hs.1
      -- reduce the head step to a recursive call on `rest` from some dst1
      have hstep : ∃ dst1, mergeGo dst1 rest = .ok out ∧
          ((∃ m1 m2 merged, alookup dst k = some (.vMap m1) ∧ v = .vMap m2 ∧
              mergeGo m1 m2 = .ok merged ∧ dst1 = aset dst k (.vMap merged)) ∨
           ((¬ ∃ m1 m2, alookup dst k = some (.vMap m1) ∧ v = .vMap m2) ∧
              dst1 = aset dst k v)) := by
        cases hdk : alookup dst k with
        | none =>
            rw [mergeGo_cons_none dst rest k v hdk] at h
            refine ⟨aset dst k v, h, Or.inr ⟨?_, rfl⟩⟩
            rintro ⟨m1, m2, hc, -⟩
            cases hc
        | some existing =>
            cases he : toStringMap existing with
            | none =>
                rw [mergeGo_cons_notboth dst rest k v existing hdk (Or.inl he)] at h
                refine ⟨aset dst k v, h, Or.inr ⟨?_, rfl⟩⟩
                rintro ⟨m1, m2, hc, -⟩
                injection hc with hc2
                rw [hc2] at he
                simp [toStringMap] at he
            | some m1 =>
                have hex : existing = .vMap m1 := toStringMap_eq_some existing m1 he
                subst hex
                cases hv : toStringMap v with
                | none =>
                    rw [mergeGo_cons_notboth dst rest k v _ hdk (Or.inr hv)] at h
                    refine ⟨aset dst k v, h, Or.inr ⟨?_, rfl⟩⟩
                    rintro ⟨m1x, m2x, hc, hvx⟩
                    subst hvx
                    simp [toStringMap] at hv
                | some m2 =>
                    have hv2 : v = .vMap m2 := toStringMap_eq_some v m2 hv
                    subst hv2
                    obtain ⟨merged, hmg⟩ := mergeGo_ok m1 m2
                    rw [mergeGo_cons_both dst rest k m1 m2 merged hdk hmg] at h
                    exact ⟨aset dst k (.vMap merged), h,
                      Or.inl ⟨m1, m2, merged, rfl, rfl, hmg, rfl⟩⟩
      obtain ⟨dst1, hrec, hcases⟩ := hstep
      have ihc := ih hs.2 dst1 out hrec key
      by_cases hk : k = key
      · subst hk
        constructor
        · intro hnone
          simp [alookup] at hnone
        · intro v' hv'
          simp only [alookup, if_pos rfl] at hv'
          cases hv'
          constructor
          · intro m1 m2 hdk hvm
            subst hvm
            rcases hcases with ⟨m1x, m2x, merged, hdkx, hvx, hmgx, hdst1⟩ |
              ⟨hnb, hdst1⟩
            · rw [hdk] at hdkx
              cases hdkx
              cases hvx
              refine ⟨merged, hmgx, ?_⟩
              have := (ihc.1 hrest)
              rw [this, hdst1, alookup_aset_self]
            · exact absurd ⟨m1, m2, hdk, rfl⟩ hnb
          · intro hnb
            rcases hcases with ⟨m1x, m2x, merged, hdkx, hvx, hmgx, hdst1⟩ |
              ⟨hnb2, hdst1⟩
            · exact absurd ⟨m1x, m2x, hdkx, hvx⟩ hnb
            · have := ihc.1 hrest
              rw [this, hdst1, alookup_aset_self]
      · have hks : alookup ((k, v) :: rest) key = alookup rest key := by
          simp [alookup, hk]
        have hdst1key : alookup dst1 key = alookup dst key := by
          rcases hcases with ⟨m1x, m2x, merged, hdkx, hvx, hmgx, hdst1⟩ |
            ⟨hnb, hdst1⟩ <;>
            (subst hdst1; exact alookup_aset_ne dst k key _ (fun hh => hk hh.symm))
        constructor
        · intro hnone
          rw [hks] at hnone
          rw [ihc.1 hnone, hdst1key]
        · intro v' hv'
          rw [hks] at hv'
          have hc2 := ihc.2 v' hv'
          constructor
          · intro m1 m2 hdk hvm
            exact hc2.1 m1 m2 (by rw [hdst1key]; exact hdk) hvm
          · intro hnb
            refine hc2.2 ?_
            rw [hdst1key]
            exact hnb

/-- C3: for all generic trees `dst` and `src` (string-keyed maps with unique
keys at the top level), `DefaultMergeStrategy.Merge` succeeds; the key set of
the result is the union of the two key sets; a key mapped to maps on both
sides is mapped to their recursive merge; every other key of `src` is mapped
to the `src` value as a whole-value overwrite; keys only in `dst` keep their
`dst` value; and for disjoint key sets the result is exactly the union. -/
theorem merge_deep_union_overwrite (dst src : GoTree)
    (hd : (akeys dst).Nodup) (hs : (akeys src).Nodup) :
    ∃ out, mergeGo dst src = .ok out ∧
      (∀ key, key ∈ akeys out ↔ (key ∈ akeys dst ∨ key ∈ akeys src)) ∧
      (∀ key m1 m2, alookup dst key = some (.vMap m1) →
        alookup src key = some (.vMap m2) →
        ∃ sub, mergeGo m1 m2 = .ok sub ∧ alookup out key = some (.vMap sub)) ∧
      (∀ key v, alookup src key = some v →
        (¬ ∃ m1 m2, alookup dst key = some (.vMap m1) ∧ v = .vMap m2) →
        alookup out key = some v) ∧
      (∀ key, alookup src key = none → alookup out key = alookup dst key) ∧
      ((∀ key, ¬ (key ∈ akeys dst ∧ key ∈ akeys src)) →
        ∀ key, alookup out key =
          match alookup dst key with
          | some v => some v
          | none => alookup src key) := by
  obtain ⟨out, hout⟩ := mergeGo_ok dst src
  have hchar := mergeGo_char src hs dst out hout
  refine ⟨out, hout, ?_, ?_, ?_, ?_, ?_⟩
  · intro key
    rw [← alookup_isSome_iff, ← alookup_isSome_iff, ← alookup_isSome_iff]
    cases hsk : alookup src key with
    | none =>
        rw [(hchar key).1 hsk]
        simp
    | some v =>
        by_cases hb : ∃ m1 m2, alookup dst key = some (.vMap m1) ∧ v = .vMap m2
        · obtain ⟨m1, m2, hdk, hvm⟩ := hb
          subst hvm
          obtain ⟨sub, -, ho⟩ := ((hchar key).2 _ hsk).1 m1 m2 hdk rfl
          simp [ho]
        · have ho := ((hchar key).2 v hsk).2 hb
          simp [ho]
  · intro key m1 m2 hdk hsk
    exact ((hchar key).2 _ hsk).1 m1 m2 hdk rfl
  · intro key v hsk hnb
    exact ((hchar key).2 v hsk).2 hnb
  · intro key hsk
    exact (hchar key).1 hsk
  · intro hdisj key
    cases hsk : alookup src key with
    | none =>
        rw [(hchar key).1 hsk]
        cases hdk : alookup dst key with
        | none => simp
        | some v => simp
    | some v =>
        have hmem : key ∈ akeys src := by
          rw [← alookup_isSome_iff]
          simp [hsk]
        have hdk : alookup dst key = none := by
          cases hdkc : alookup dst key with
          | none => rfl
          | some w =>
              exact absurd ⟨(alookup_isSome_iff dst key).mp (by simp [hdkc]), hmem⟩
                (hdisj key)
        have ho := ((hchar key).2 v hsk).2 ?_
        · rw [ho, hdk]
        · rintro ⟨m1, m2, hc, -⟩
          rw [hdk] at hc
          cases hc

/-- Witness for C3 at concrete disjoint trees. -/
theorem merge_deep_union_overwrite_witness :
    ∃ out, mergeGo [("a", GoVal.vInt 1)] [("b", GoVal.vStr "x")] = .ok out ∧
      (∀ key, key ∈ akeys out ↔
        (key ∈ akeys [("a", GoVal.vInt 1)] ∨ key ∈ akeys [("b", GoVal.vStr "x")])) ∧
      (∀ key m1 m2, alookup [("a", GoVal.vInt 1)] key = some (.vMap m1) →
        alookup [("b", GoVal.vStr "x")] key = some (.vMap m2) →
        ∃ sub, mergeGo m1 m2 = .ok sub ∧ alookup out key = some (.vMap sub)) ∧
      (∀ key v, alookup [("b", GoVal.vStr "x")] key = some v →
        (¬ ∃ m1 m2, alookup [("a", GoVal.vInt 1)] key = some (.vMap m1) ∧
          v = .vMap m2) →
        alookup out key = some v) ∧
      (∀ key, alookup [("b", GoVal.vStr "x")] key = none →
        alookup out key = alookup [("a", GoVal.vInt 1)] key) ∧
      ((∀ key, ¬ (key ∈ akeys [("a", GoVal.vInt 1)] ∧
          key ∈ akeys [("b", GoVal.vStr "x")])) →
        ∀ key, alookup out key =
          match alookup [("a", GoVal.vInt 1)] key with
          | some v => some v
          | none => alookup [("b", GoVal.vStr "x")] key) :=
  merge_deep_union_overwrite [("a", GoVal.vInt 1)] [("b", GoVal.vStr "x")]
    (by simp [akeys]) (by simp [akeys])

/-! ## The aggregator facade: `DefaultConfig`, `Get`, `GetBool`, `Keys` -/

/-- The type of a pluggable `VariableExpander.Expand` implementation. -/
abbrev ExpanderFn := GoStr → (GoStr → Option GoStr) → Except String GoStr

/-- The type of a registered decoder `Decode` implementation (raw bytes to
generic tree). -/
abbrev DecoderFn := GoStr → Except String GoTree

/-- Models the `DefaultConfig` struct.  The mutex is concurrency plumbing
with no sequential content and is not modelled.  The Go field `envPrefix`
is rendered as `envPfx`. -/
structure DefaultConfig where
  decoders : List (String × DecoderFn)
  merge : GoTree → GoTree → Except String GoTree
  expander : Option ExpanderFn
  envPfx : String
  envExpand : Bool
  data : GoTree

/-- Models the loop body of `getByPath`: walk the already-split path
segments through nested maps (`toStringMap` at every level), returning the
value at the last segment. -/
def getByPathLoop : List GoStr → GoVal → Option GoVal
  | [], _ => none
  | p :: rest, cur =>
      match toStringMap cur with
      | none => none
      | some m =>
          match alookup m (String.mk p) with
          | none => none
          | some v =>
              match rest with
              | [] => some v
              | _ :: _ => getByPathLoop rest v

/-- Models `getByPath` (the `data == nil` early return is not represented:
a `DefaultConfig` built by `NewDefaultConfig` always carries a non-nil map,
and nil and empty maps are not distinguished by this embedding). -/
def getByPath (data : GoTree) (path : String) : Option GoVal :=
  getByPathLoop (splitOnChar '.' path.data) (.vMap data)

/-- Models `DefaultConfig.Get`. -/
def DefaultConfig.Get (c : DefaultConfig) (path : String) : Option GoVal :=
  if path = "" then some (.vMap c.data) else getByPath c.data path

/-- Models `DefaultConfig.GetBool`: booleans pass through, strings are
compared lowercased against the two literal sets, everything else (and a
missing or nil value) reports not-found. -/
def DefaultConfig.GetBool (c : DefaultConfig) (path : String) : Bool × Bool :=
  match c.Get path with
  | none => (false, false)
  | some v =>
      match v with
      | .vNull => (false, false)
      | .vBool b => (b, true)
      | .vStr s =>
          let lower := goToLowerS s
          if lower = "true" ∨ lower = "1" ∨ lower = "yes" ∨ lower = "y" ∨
              lower = "on" then (true, true)
          else if lower = "false" ∨ lower = "0" ∨ lower = "no" ∨
              lower = "n" ∨ lower = "off" then (false, true)
          else (false, false)
      | _ => (false, false)

mutual

/-- Models `flattenKeys`: emit the dotted path of every non-map leaf. -/
def flattenKeys (pfx : String) (v : GoVal) : List String :=
  match h : toStringMap v with
  | none => if pfx = "" then [] else [pfx]
  | some m => flattenEntries pfx m
termination_by sizeOf v
decreasing_by
  simp_wf
  cases v <;> simp_all [toStringMap]

/-- The `range` loop inside `flattenKeys` over one map level. -/
def flattenEntries (pfx : String) : GoTree → List String
  | [] => []
  | (k, v2) :: rest =>
      let key := if pfx = "" then k else pfx ++ "." ++ k
      (if (toStringMap v2).isSome then flattenKeys key v2 else [key]) ++
        flattenEntries pfx rest
termination_by m => sizeOf m
decreasing_by
  all_goals simp_wf
  all_goals omega

end

/-- Models `DefaultConfig.Keys`. -/
def DefaultConfig.Keys (c : DefaultConfig) : List String :=
  flattenKeys "" (.vMap c.data)

/-! ## Models of the standard-library parsers used by the environment
materializer (`strconv.ParseInt`, `strconv.ParseFloat`,
`time.ParseDuration`) -/

/-- Numeric value of a decimal digit string. -/
def decValue (s : GoStr) : Nat :=
  s.foldl (fun acc c => acc * 10 + (c.toNat - 48)) 0

/-- Numeric value of a hexadecimal digit string. -/
def hexValue (s : GoStr) : Nat :=
  s.foldl (fun acc c =>
    acc * 16 +
      (if c.isDigit then c.toNat - 48
       else if 'a' ≤ c ∧ c ≤ 'f' then c.toNat - 87
       else c.toNat - 55)) 0

/-- Models `strconv.ParseInt(s, 10, 64)`: optional sign, one or more decimal
digits, result within the signed 64-bit range; digit-separator underscores
are rejected (they are only legal with base 0). -/
def goParseInt64 (s : GoStr) : Option Int :=
  let signDigits : Int × GoStr :=
    match s with
    | '+' :: rest => (1, rest)
    | '-' :: rest => (-1, rest)
    | _ => (1, s)
  let sgn := signDigits.1
  let ds := signDigits.2
  if ds = [] then none
  else if ds.all Char.isDigit then
    let v : Int := sgn * decValue ds
    if -(2 ^ 63) ≤ v ∧ v ≤ 2 ^ 63 - 1 then some v else none
  else none

/-- Hexadecimal digit test. -/
def isHexDigitC (c : Char) : Bool :=
  c.isDigit ∨ ('a' ≤ c ∧ c ≤ 'f') ∨ ('A' ≤ c ∧ c ≤ 'F')

/-- Models `strconv.ParseFloat(s, 64)` on decimal and hexadecimal mantissas,
with the exact rational value instead of the rounded binary64 value (no
claim depends on rounding).  Approximations, none reachable from the
claims: digit-separator underscores are rejected; `inf`/`infinity`/`nan`
spellings (accepted by Go, but containing none of the characters that guard
the call site in `defaultEnvValueParser`) yield `none`; the over/underflow
range error is modelled by the exact boundaries of rounding to `±Inf`
respectively to zero. -/
def goParseFloat (s : GoStr) : Option ℚ :=
  let signRest : ℚ × GoStr :=
    match s with
    | '+' :: rest => (1, rest)
    | '-' :: rest => (-1, rest)
    | _ => (1, s)
  let sgn := signRest.1
  let r0 := signRest.2
  let body : Option ℚ :=
    match r0 with
    | '0' :: x :: r1 =>
        if x = 'x' ∨ x = 'X' then goParseHexBody r1 else goParseDecBody r0
    | _ => goParseDecBody r0
  match body with
  | none => none
  | some m =>
      let v := sgn * m
      if v ≠ 0 ∧ |v| ≤ 1 / 2 ^ 1075 then none
      else if 2 ^ 1024 - 2 ^ 970 ≤ |v| then none
      else some v
where
  /-- decimal mantissa and optional decimal exponent, to the end of input -/
  goParseDecBody (r : GoStr) : Option ℚ :=
    let ip := r.takeWhile Char.isDigit
    let r1 := r.dropWhile Char.isDigit
    let fracRest : GoStr × GoStr :=
      match r1 with
      | '.' :: t => (t.takeWhile Char.isDigit, t.dropWhile Char.isDigit)
      | _ => ([], r1)
    let fp := fracRest.1
    let r2 := fracRest.2
    if ip = [] ∧ fp = [] then none
    else
      let mant : ℚ := (decValue ip : ℚ) + (decValue fp : ℚ) / 10 ^ fp.length
      match r2 with
      | [] => some mant
      | e :: t =>
          if e = 'e' ∨ e = 'E' then
            let esignRest : Int × GoStr :=
              match t with
              | '+' :: t2 => (1, t2)
              | '-' :: t2 => (-1, t2)
              | _ => (1, t)
            let ed := esignRest.2
            if ed ≠ [] ∧ ed.all Char.isDigit then
              some (mant * (10 : ℚ) ^ (esignRest.1 * decValue ed))
            else none
          else none
  /-- hexadecimal mantissa with mandatory binary exponent -/
  goParseHexBody (r : GoStr) : Option ℚ :=
    let ip := r.takeWhile isHexDigitC
    let r1 := r.dropWhile isHexDigitC
    let fracRest : GoStr × GoStr :=
      match r1 with
      | '.' :: t => (t.takeWhile isHexDigitC, t.dropWhile isHexDigitC)
      | _ => ([], r1)
    let fp := fracRest.1
    let r2 := fracRest.2
    if ip = [] ∧ fp = [] then none
    else
      let mant : ℚ := (hexValue ip : ℚ) + (hexValue fp : ℚ) / 16 ^ fp.length
      match r2 with
      | p :: t =>
          if p = 'p' ∨ p = 'P' then
            let esignRest : Int × GoStr :=
              match t with
              | '+' :: t2 => (1, t2)
              | '-' :: t2 => (-1, t2)
              | _ => (1, t)
            let ed := esignRest.2
            if ed ≠ [] ∧ ed.all Char.isDigit then
              some (mant * (2 : ℚ) ^ (esignRest.1 * decValue ed))
            else none
          else none
      | [] => none

/-- The `time.ParseDuration` unit table, in nanoseconds. -/
def durUnit : GoStr → Option Int
  | ['n', 's'] => some 1
  | ['u', 's'] => some 1000
  | ['µ', 's'] => some 1000
  | ['μ', 's'] => some 1000
  | ['m', 's'] => some 1000000
  | ['s'] => some 1000000000
  | ['m'] => some 60000000000
  | ['h'] => some 3600000000000
  | _ => none

/-- One `number [.fraction] unit` term plus the rest of the loop, with fuel
bounding the number of iterations (every iteration consumes the non-empty
unit, so `length + 1` fuel never runs out). -/
def parseDurLoop : Nat → GoStr → Option Int
  | 0, _ => none
  | _ + 1, [] => some 0
  | fuel + 1, s =>
      let ipds := s.takeWhile Char.isDigit
      let r1 := s.dropWhile Char.isDigit
      let fracRest : GoStr × GoStr :=
        match r1 with
        | '.' :: t => (t.takeWhile Char.isDigit, t.dropWhile Char.isDigit)
        | _ => ([], r1)
      let fp := fracRest.1
      let r2 := fracRest.2
      if ipds = [] ∧ (r1 = r2 ∨ fp = []) then none
      else
        let u := r2.takeWhile (fun c => ¬ (c.isDigit ∨ c = '.'))
        let r3 := r2.dropWhile (fun c => ¬ (c.isDigit ∨ c = '.'))
        if u = [] then none
        else
          match durUnit u with
          | none => none
          | some unit =>
              let term : Int :=
                (decValue ipds : Int) * unit +
                  Int.fdiv ((decValue fp : Int) * unit) (10 ^ fp.length)
              match parseDurLoop fuel r3 with
              | none => none
              | some rest => some (term + rest)

/-- Models `time.ParseDuration`, returning nanoseconds: optional sign,
the literal `0`, or one or more `number unit` terms with an explicit unit
suffix each.  Approximations (unreachable from the claims): per-term
overflow checks are replaced by a final signed 64-bit range check, and the
float64 rounding Go applies to fractional parts is replaced by exact
truncating division. -/
def goParseDuration (s : GoStr) : Option Int :=
  let signRest : Bool × GoStr :=
    match s with
    | '-' :: r => (true, r)
    | '+' :: r => (false, r)
    | _ => (false, s)
  let neg := signRest.1
  let r := signRest.2
  if r = ['0'] then some 0
  else if r = [] then none
  else
    match parseDurLoop (r.length + 1) r with
    | none => none
    | some total =>
        let v : Int := if neg then -total else total
        if -(2 ^ 63) ≤ v ∧ v ≤ 2 ^ 63 - 1 then some v else none

/-- Models `defaultEnvValueParser`: trim, then boolean literals, then
base-10 integer, then (guarded) float, then duration, else the trimmed
string. -/
def defaultEnvValueParser (raw : String) : GoVal :=
  let s := goTrimSpace raw.data
  if s = [] then .vStr (String.mk s)
  else
    let lower := goToLower s
    if lower = "true".data ∨ lower = "yes".data ∨ lower = "y".data ∨
        lower = "on".data then .vBool true
    else if lower = "false".data ∨ lower = "no".data ∨ lower = "n".data ∨
        lower = "off".data then .vBool false
    else
      match goParseInt64 s with
      | some i => .vInt i
      | none =>
          match
            (if s.any (fun c => c = '.' ∨ c = 'e' ∨ c = 'E') then
              goParseFloat s
            else none) with
          | some f => .vFloat f
          | none =>
              match goParseDuration s with
              | some d => .vDur d
              | none => .vStr (String.mk s)

/-- Neither boolean literal set matches the lowercased trimmed value. -/
def noBoolLit (lower : GoStr) : Prop :=
  ¬ (lower = "true".data ∨ lower = "yes".data ∨ lower = "y".data ∨
      lower = "on".data) ∧
  ¬ (lower = "false".data ∨ lower = "no".data ∨ lower = "n".data ∨
      lower = "off".data)

theorem envParser_step_bool_true (raw : String)
    (h : goToLower (goTrimSpace raw.data) = "true".data ∨
      goToLower (goTrimSpace raw.data) = "yes".data ∨
      goToLower (goTrimSpace raw.data) = "y".data ∨
      goToLower (goTrimSpace raw.data) = "on".data) :
    defaultEnvValueParser raw = .vBool true := by
  have hne : goTrimSpace raw.data ≠ [] := by
    intro hx
    rw [hx] at h
    rcases h with h | h | h | h <;> simp [goToLower] at h <;> cases h
  simp [defaultEnvValueParser, hne, h]

theorem envParser_step_bool_false (raw : String)
    (h : goToLower (goTrimSpace raw.data) = "false".data ∨
      goToLower (goTrimSpace raw.data) = "no".data ∨
      goToLower (goTrimSpace raw.data) = "n".data ∨
      goToLower (goTrimSpace raw.data) = "off".data) :
    defaultEnvValueParser raw = .vBool false := by
  have hne : goTrimSpace raw.data ≠ [] := by
    intro hx
    rw [hx] at h
    rcases h with h | h | h | h <;> simp [goToLower] at h <;> cases h
  rcases h with h | h | h | h <;>
    simp [defaultEnvValueParser, hne, h] <;> decide

theorem envParser_step_rest (raw : String) (hnb : noBoolLit (goToLower (goTrimSpace raw.data)))
    (hne : goTrimSpace raw.data ≠ []) :
    defaultEnvValueParser raw =
      (match goParseInt64 (goTrimSpace raw.data) with
       | some i => .vInt i
       | none =>
          match
            (if (goTrimSpace raw.data).any (fun c => c = '.' ∨ c = 'e' ∨ c = 'E') then
              goParseFloat (goTrimSpace raw.data)
            else none) with
          | some f => .vFloat f
          | none =>
              match goParseDuration (goTrimSpace raw.data) with
              | some d => .vDur d
              | none => .vStr (String.mk (goTrimSpace raw.data))) := by
  obtain ⟨h1, h2⟩ := hnb
  simp [defaultEnvValueParser, hne, h1, h2]

/-- C6: the default environment value parser is the guarded cascade the
spec describes, over the trimmed input: boolean literals first (with `0`
and `1` not among them), then base-10 integer, then float only when a
`.`/`e`/`E` is present, then duration, else the trimmed string; and the
five example inputs parse as stated. -/
theorem envValueParser_inference_order (raw : String)
    (s lower : GoStr)
    (hs : s = goTrimSpace raw.data) (hlow : lower = goToLower s) :
    (s = [] → defaultEnvValueParser raw = .vStr "") ∧
    ((lower = "true".data ∨ lower = "yes".data ∨ lower = "y".data ∨
        lower = "on".data) → defaultEnvValueParser raw = .vBool true) ∧
    ((lower = "false".data ∨ lower = "no".data ∨ lower = "n".data ∨
        lower = "off".data) → defaultEnvValueParser raw = .vBool false) ∧
    (∀ n, noBoolLit lower → goParseInt64 s = some n →
      defaultEnvValueParser raw = .vInt n) ∧
    (∀ q, noBoolLit lower → goParseInt64 s = none →
      s.any (fun c => c = '.' ∨ c = 'e' ∨ c = 'E') = true →
      goParseFloat s = some q → defaultEnvValueParser raw = .vFloat q) ∧
    (noBoolLit lower → goParseInt64 s = none →
      (s.any (fun c => c = '.' ∨ c = 'e' ∨ c = 'E') = false ∨
        goParseFloat s = none) →
      defaultEnvValueParser raw =
        (match goParseDuration s with
         | some d => .vDur d
         | none => .vStr (String.mk s))) ∧
    (defaultEnvValueParser "true" = .vBool true ∧
      defaultEnvValueParser "0" = .vInt 0 ∧
      defaultEnvValueParser "1" = .vInt 1 ∧
      defaultEnvValueParser "1.5" = .vFloat ((3 : ℚ) / 2) ∧
      defaultEnvValueParser "500ms" = .vDur 500000000 ∧
      defaultEnvValueParser "hello" = .vStr "hello") := by
  subst hs hlow
  refine ⟨?_, ?_, ?_, ?_, ?_, ?_, ?_⟩
  · intro h
    simp [defaultEnvValueParser, h]
  · exact envParser_step_bool_true raw
  · exact envParser_step_bool_false raw
  · intro n hnb hint
    by_cases hne : goTrimSpace raw.data = []
    · rw [hne] at hint
      simp [goParseInt64] at hint
    · rw [envParser_step_rest raw hnb hne, hint]
  · intro q hnb hint hany hq
    by_cases hne : goTrimSpace raw.data = []
    · rw [hne] at hany
      simp at hany
    · rw [envParser_step_rest raw hnb hne, hint, hany, hq]
      simp
  · intro hnb hint hfl
    by_cases hne : goTrimSpace raw.data = []
    · have h1 : defaultEnvValueParser raw = .vStr "" := by
        simp [defaultEnvValueParser, hne]
      rw [h1, hne]
      rfl
    · rw [envParser_step_rest raw hnb hne, hint]
      rcases hfl with hfl | hfl
      · rw [hfl]
        simp
      · cases hany : (goTrimSpace raw.data).any (fun c => c = '.' ∨ c = 'e' ∨ c = 'E') with
        | false => simp
        | true => rw [hfl]; simp
  · refine ⟨by rfl, by rfl, by rfl, ?_, by rfl, by rfl⟩
    have hf : goParseFloat ['1', '.', '5'] = some ((3 : ℚ) / 2) := by
      have h0 : goParseFloat ['1', '.', '5'] =
          (let m : ℚ := (decValue ['1'] : ℚ) + (decValue ['5'] : ℚ) / 10 ^ 1
           let v : ℚ := 1 * m
           if v ≠ 0 ∧ |v| ≤ 1 / 2 ^ 1075 then none
           else if 2 ^ 1024 - 2 ^ 970 ≤ |v| then none
           else some v) := rfl
      rw [h0]
      have hm : ((decValue ['1'] : ℚ) + (decValue ['5'] : ℚ) / 10 ^ 1) = (3 : ℚ) / 2 := by
        rw [show decValue ['1'] = 1 from rfl, show decValue ['5'] = 5 from rfl]
        norm_num
      simp only [hm]
      rw [one_mul]
      rw [if_neg, if_neg]
      · intro hc
        rw [abs_of_pos (by norm_num : (0 : ℚ) < 3 / 2)] at hc
        norm_num at hc
      · rintro ⟨-, hc⟩
        rw [abs_of_pos (by norm_num : (0 : ℚ) < 3 / 2)] at hc
        norm_num at hc
    have hstep := envParser_step_rest "1.5" ⟨by decide, by decide⟩ (by decide)
    rw [hstep]
    have hint : goParseInt64 (goTrimSpace "1.5".data) = none := rfl
    have hany : ((goTrimSpace "1.5".data).any
        (fun c => c = '.' ∨ c = 'e' ∨ c = 'E')) = true := rfl
    have hf2 : goParseFloat (goTrimSpace "1.5".data) = some ((3 : ℚ) / 2) := hf
    simp only [hint, hf2]
    rw [if_pos]
    rfl

/-- Witness for C6 at the duration example input. -/
theorem envValueParser_inference_order_witness :
    defaultEnvValueParser "500ms" = .vDur 500000000 := by
  have h := (envValueParser_inference_order "500ms"
      (goTrimSpace "500ms".data) (goToLower (goTrimSpace "500ms".data))
      rfl rfl).2.2.2.2.2.1 ⟨by decide, by decide⟩ (by rfl) (Or.inl (by rfl))
  rw [h]
  rfl

/-- C10: `GetBool` on a path holding a string coerces the ten boolean
literal strings case-insensitively, including `"0"` and `"1"`, and reports
not-found for every other string, while the environment materializer parses
`"0"` and `"1"` as integers, never booleans. -/
theorem getBool_string_coercion (c : DefaultConfig) (path : String) (s : String)
    (h : c.Get path = some (.vStr s)) :
    ((goToLowerS s = "true" ∨ goToLowerS s = "1" ∨ goToLowerS s = "yes" ∨
        goToLowerS s = "y" ∨ goToLowerS s = "on") →
      c.GetBool path = (true, true)) ∧
    ((goToLowerS s = "false" ∨ goToLowerS s = "0" ∨ goToLowerS s = "no" ∨
        goToLowerS s = "n" ∨ goToLowerS s = "off") →
      c.GetBool path = (false, true)) ∧
    ((¬ (goToLowerS s = "true" ∨ goToLowerS s = "1" ∨ goToLowerS s = "yes" ∨
        goToLowerS s = "y" ∨ goToLowerS s = "on")) →
      (¬ (goToLowerS s = "false" ∨ goToLowerS s = "0" ∨ goToLowerS s = "no" ∨
        goToLowerS s = "n" ∨ goToLowerS s = "off")) →
      c.GetBool path = (false, false)) ∧
    defaultEnvValueParser "0" = .vInt 0 ∧
    defaultEnvValueParser "1" = .vInt 1 ∧
    (∀ b, defaultEnvValueParser "0" ≠ .vBool b) ∧
    (∀ b, defaultEnvValueParser "1" ≠ .vBool b) := by
  refine ⟨?_, ?_, ?_, by rfl, by rfl, ?_, ?_⟩
  · intro hlit
    simp [DefaultConfig.GetBool, h, hlit]
  · intro hlit
    have hnt : ¬ (goToLowerS s = "true" ∨ goToLowerS s = "1" ∨
        goToLowerS s = "yes" ∨ goToLowerS s = "y" ∨ goToLowerS s = "on") := by
      rcases hlit with h1 | h1 | h1 | h1 | h1 <;> rw [h1] <;> decide
    simp [DefaultConfig.GetBool, h, hnt, hlit]
  · intro hnt hnf
    simp [DefaultConfig.GetBool, h, hnt, hnf]
  · intro b hb
    rw [show defaultEnvValueParser "0" = .vInt 0 from rfl] at hb
    cases hb
  · intro b hb
    rw [show defaultEnvValueParser "1" = .vInt 1 from rfl] at hb
    cases hb

/-- A tiny concrete configuration used by the C10 witness. -/
def cfgBool : DefaultConfig :=
  { decoders := [], merge := mergeGo, expander := none, envPfx := "",
    envExpand := false, data := [("flag", .vStr "1")] }

/-- Witness for C10: the stored string `"1"` coerces to `(true, true)`. -/
theorem getBool_string_coercion_witness :
    cfgBool.GetBool "flag" = (true, true) ∧
    defaultEnvValueParser "1" = .vInt 1 := by
  have hc := getBool_string_coercion cfgBool "flag" "1" (by rfl)
  exact ⟨hc.1 (Or.inr (Or.inl rfl)), hc.2.2.2.2.1⟩

/-! ## The placeholder expansion engine -/

/-- `strings.Index(s, string(c))`: index of the first occurrence, `-1` if
absent. -/
def goIndexChar (s : GoStr) (c : Char) : Int :=
  match s.findIdx? (· = c) with
  | some i => (i : Int)
  | none => -1

/-- `strings.Contains(s, string(c))` for a one-character needle. -/
def containsChar (s : GoStr) (c : Char) : Bool := s.any (· = c)

/-- Models `expandSinglePlaceholder`: split the trimmed expression on the
first `|` into main part and default, split the main part on the first `.`
into source and key, build the lookup name, and resolve. -/
def expandSinglePlaceholder (rawExpr0 : GoStr) (lookup : GoStr → Option GoStr) :
    Except String GoStr :=
  let rawExpr := goTrimSpace rawExpr0
  if rawExpr = [] then .error "empty placeholder expression"
  else
    let mainDef : GoStr × GoStr :=
      if containsChar rawExpr '|' then
        (goTrimSpace (rawExpr.takeWhile (· ≠ '|')),
         goTrimSpace ((rawExpr.dropWhile (· ≠ '|')).drop 1))
      else (rawExpr, [])
    let mainPart := mainDef.1
    let defValue := mainDef.2
    let dot := goIndexChar mainPart '.'
    if dot ≤ 0 then .error "invalid placeholder (missing dot)"
    else
      let source := goTrimSpace (mainPart.takeWhile (· ≠ '.'))
      let key := goTrimSpace ((mainPart.dropWhile (· ≠ '.')).drop 1)
      if source = [] ∨ key = [] then .error "invalid placeholder"
      else
        let envName :=
          if source = "env".data then key
          else goToUpper source ++ '_' :: goToUpper key
        match lookup envName with
        | some val => .ok val
        | none => if defValue ≠ [] then .ok defValue else .ok []

/-- First occurrence of the two-character pattern `${`: the text before it
and the text after it (`strings.Index(input, "${")`). -/
def findDollarBrace : GoStr → Option (GoStr × GoStr)
  | [] => none
  | [_] => none
  | c1 :: c2 :: rest =>
      if c1 = '$' ∧ c2 = '{' then some ([], rest)
      else (findDollarBrace (c2 :: rest)).map (fun pr => (c1 :: pr.1, pr.2))

/-- First occurrence of a single character: the text before it and the text
after it. -/
def splitOnFirstChar (c : Char) : GoStr → Option (GoStr × GoStr)
  | [] => none
  | x :: rest =>
      if x = c then some ([], rest)
      else (splitOnFirstChar c rest).map (fun pr => (x :: pr.1, pr.2))

/-- The string contains an occurrence of the substring `${`. -/
def hasDB (s : GoStr) : Prop := ∃ a b, s = a ++ '$' :: '{' :: b

theorem findDollarBrace_eq (input : GoStr) :
    ∀ pre rest, findDollarBrace input = some (pre, rest) →
      input = pre ++ '$' :: '{' :: rest := by
  induction input using findDollarBrace.induct with
  | case1 =>
      intro pre rest h
      simp [findDollarBrace] at h
  | case2 c =>
      intro pre rest h
      simp [findDollarBrace] at h
  | case3 c1 c2 rest2 hc =>
      intro pre rest h
      obtain ⟨h1, h2⟩ := hc
      subst h1
      subst h2
      rw [findDollarBrace, if_pos ⟨rfl, rfl⟩] at h
      injection h with h2
      injection h2 with h3 h4
      rw [← h3, ← h4]
      rfl
  | case4 c1 c2 rest2 hc ih =>
      intro pre rest h
      rw [findDollarBrace, if_neg hc, Option.map_eq_some'] at h
      obtain ⟨⟨a2, b2⟩, hsp, heq⟩ := h
      have ha : c1 :: a2 = pre := congrArg Prod.fst heq
      have hb : b2 = rest := congrArg Prod.snd heq
      subst ha
      subst hb
      rw [List.cons_append]
      rw [← ih a2 b2 hsp]

theorem findDollarBrace_none (input : GoStr) :
    findDollarBrace input = none → ¬ hasDB input := by
  induction input using findDollarBrace.induct with
  | case1 =>
      rintro - ⟨a, b, hab⟩
      simp at hab
  | case2 c =>
      rintro - ⟨a, b, hab⟩
      have hlen := congrArg List.length hab
      simp at hlen
      omega
  | case3 c1 c2 rest2 hc =>
      intro h
      rw [findDollarBrace, if_pos hc] at h
      cases h
  | case4 c1 c2 rest2 hc ih =>
      intro h
      rw [findDollarBrace, if_neg hc] at h
      have hnone : findDollarBrace (c2 :: rest2) = none := by
        cases hd : findDollarBrace (c2 :: rest2) with
        | none => rfl
        | some pr => rw [hd] at h; cases h
      rintro ⟨a, b, hab⟩
      cases a with
      | nil =>
          obtain ⟨h1, h2⟩ := List.cons.injEq .. ▸ hab
          obtain ⟨h3, -⟩ := List.cons.injEq .. ▸ h2
          exact hc ⟨h1, h3⟩
      | cons x t =>
          obtain ⟨-, h2⟩ := List.cons.injEq .. ▸ hab
          exact (ih hnone) ⟨t, b, h2⟩

theorem splitOnFirstChar_eq (c : Char) (s : GoStr) :
    ∀ a b, splitOnFirstChar c s = some (a, b) → s = a ++ c :: b ∧ c ∉ a := by
  induction s with
  | nil =>
      intro a b h
      simp [splitOnFirstChar] at h
  | cons x t ih =>
      intro a b h
      rw [splitOnFirstChar] at h
      by_cases hx : x = c
      · subst hx
        rw [if_pos rfl] at h
        injection h with h2
        injection h2 with h3 h4
        rw [← h3, ← h4]
        simp
      · rw [if_neg hx, Option.map_eq_some'] at h
        obtain ⟨⟨a2, b2⟩, hsp, heq⟩ := h
        injection heq with h3 h4
        subst h3
        subst h4
        obtain ⟨h1, h2⟩ := ih a2 b2 hsp
        refine ⟨by rw [List.cons_append, ← h1], ?_⟩
        intro hmem
        rcases List.mem_cons.mp hmem with hmem | hmem
        · exact hx hmem.symm
        · exact h2 hmem

theorem splitOnFirstChar_none (c : Char) (s : GoStr) :
    splitOnFirstChar c s = none → c ∉ s := by
  induction s with
  | nil => intro h hm; cases hm
  | cons x t ih =>
      intro h hm
      rw [splitOnFirstChar] at h
      by_cases hx : x = c
      · rw [if_pos hx] at h
        cases h
      · rw [if_neg hx] at h
        have hnone : splitOnFirstChar c t = none := by
          cases hd : splitOnFirstChar c t with
          | none => rfl
          | some pr => rw [hd] at h; cases h
        rcases List.mem_cons.mp hm with hm | hm
        · exact hx hm.symm
        · exact ih hnone hm

theorem findDollarBrace_pre (input : GoStr) :
    ∀ pre rest, findDollarBrace input = some (pre, rest) → ¬ hasDB pre := by
  induction input using findDollarBrace.induct with
  | case1 =>
      intro pre rest h
      simp [findDollarBrace] at h
  | case2 c =>
      intro pre rest h
      simp [findDollarBrace] at h
  | case3 c1 c2 rest2 hc =>
      intro pre rest h
      rw [findDollarBrace, if_pos hc] at h
      injection h with h2
      injection h2 with h3 h4
      rintro ⟨a, b, hab⟩
      rw [← h3] at hab
      simp at hab
  | case4 c1 c2 rest2 hc ih =>
      intro pre rest h
      rw [findDollarBrace, if_neg hc] at h
      cases hd : findDollarBrace (c2 :: rest2) with
      | none =>
          rw [hd] at h
          cases h
      | some pr =>
          obtain ⟨a2, b2⟩ := pr
          rw [hd] at h
          injection h with h5
          injection h5 with h6 h7
          subst h6
          subst h7
          rintro ⟨a, b, hab⟩
          cases a with
          | nil =>
              injection hab with hx1 hx2
              dsimp only at hx2
              have hteq := findDollarBrace_eq _ _ _ hd
              rw [hx2] at hteq
              injection hteq with hz1 hz2
              exact hc ⟨hx1, hz1⟩
          | cons x t =>
              injection hab with hx1 hx2
              dsimp only at hx2
              exact ih a2 b2 hd ⟨t, b, hx2⟩

theorem occSplit (pre : GoStr) : ∀ (rest a b : GoStr),
    pre ++ '$' :: '{' :: rest = a ++ '$' :: '{' :: b → ¬ hasDB pre →
    (a = pre ∧ b = rest) ∨
    (∃ c, a = pre ++ '$' :: '{' :: c ∧ rest = c ++ '$' :: '{' :: b) := by
  induction pre with
  | nil =>
      intro rest a b heq hdb
      cases a with
      | nil =>
          simp only [List.nil_append] at heq
          injection heq with h1 h2
          injection h2 with h3 h4
          exact Or.inl ⟨rfl, h4.symm⟩
      | cons x t =>
          simp only [List.nil_append, List.cons_append] at heq
          injection heq with h1 h2
          cases t with
          | nil =>
              simp only [List.nil_append] at h2
              injection h2 with h3 h4
              cases h3
          | cons y t2 =>
              simp only [List.cons_append] at h2
              injection h2 with h3 h4
              subst h1
              subst h3
              exact Or.inr ⟨t2, by simp, h4⟩
  | cons p pre2 ih =>
      intro rest a b heq hdb
      have hdb2 : ¬ hasDB pre2 := by
        rintro ⟨a2, b2, hx⟩
        exact hdb ⟨p :: a2, b2, by rw [hx]; rfl⟩
      cases a with
      | nil =>
          simp only [List.cons_append, List.nil_append] at heq
          injection heq with h1 h2
          cases pre2 with
          | nil =>
              simp only [List.nil_append] at h2
              injection h2 with h3 h4
              cases h3
          | cons q pre3 =>
              simp only [List.cons_append] at h2
              injection h2 with h3 h4
              exact absurd ⟨[], pre3, by rw [h1, h3]; rfl⟩ hdb
      | cons x t =>
          simp only [List.cons_append] at heq
          injection heq with h1 h2
          subst h1
          rcases ih rest t b h2 hdb2 with ⟨ha, hb⟩ | ⟨c, hac, hr⟩
          · exact Or.inl ⟨by rw [ha], hb⟩
          · exact Or.inr ⟨c, by rw [List.cons_append, hac], hr⟩

theorem closeSplit (expr : GoStr) : ∀ (rest' c b : GoStr),
    expr ++ '}' :: rest' = c ++ '$' :: '{' :: b → '}' ∉ expr → '}' ∉ b →
    ∃ d, c = expr ++ '}' :: d ∧ rest' = d ++ '$' :: '{' :: b := by
  induction expr with
  | nil =>
      intro rest' c b heq hne hnb
      cases c with
      | nil =>
          simp only [List.nil_append] at heq
          injection heq with h1 h2
          cases h1
      | cons x t =>
          simp only [List.nil_append, List.cons_append] at heq
          injection heq with h1 h2
          subst h1
          exact ⟨t, rfl, h2⟩
  | cons e expr2 ih =>
      intro rest' c b heq hne hnb
      have hne2 : '}' ∉ expr2 := fun hm => hne (List.mem_cons_of_mem e hm)
      cases c with
      | nil =>
          simp only [List.cons_append, List.nil_append] at heq
          injection heq with h1 h2
          cases expr2 with
          | nil =>
              simp only [List.nil_append] at h2
              injection h2 with h3 h4
              cases h3
          | cons f expr3 =>
              simp only [List.cons_append] at h2
              injection h2 with h3 h4
              exact absurd (h4 ▸ (by simp : '}' ∈ expr3 ++ '}' :: rest')) hnb
      | cons x t =>
          simp only [List.cons_append] at heq
          injection heq with h1 h2
          subst h1
          obtain ⟨d, hc, hr⟩ := ih rest' t b h2 hne2 hnb
          exact ⟨d, by rw [List.cons_append, hc], hr⟩

/-- Models `expandAllPlaceholders`: scan left to right; each `${` must be
closed by the next `}`; expand the span and continue after it.  (The Go
error carries the unprocessed suffix in its message; the suffix is dropped
here, only the presence of the error matters to the claims.) -/
def expandAllPlaceholders (input : GoStr) (lookup : GoStr → Option GoStr) :
    Except String GoStr :=
  match h1 : findDollarBrace input with
  | none => .ok input
  | some (pre, afterOpen) =>
      match h2 : splitOnFirstChar '}' afterOpen with
      | none => .error "placeholder not closed"
      | some (rawExpr, rest) =>
          match expandSinglePlaceholder rawExpr lookup with
          | .error e => .error e
          | .ok expanded =>
              match expandAllPlaceholders rest lookup with
              | .error e => .error e
              | .ok tail => .ok (pre ++ expanded ++ tail)
termination_by input.length
decreasing_by
  simp_wf
  have e1 := findDollarBrace_eq input pre afterOpen h1
  have e2 := (splitOnFirstChar_eq '}' afterOpen rawExpr rest h2).1
  rw [e1, e2]
  simp
  omega

/-- Models `DefaultVariableExpander.Expand`: empty input or input without
`${` is returned unchanged; otherwise scan and replace. -/
def DefaultVariableExpander.Expand (input : GoStr)
    (lookup : GoStr → Option GoStr) : Except String GoStr :=
  if input = [] ∨ (findDollarBrace input).isSome = false then .ok input
  else expandAllPlaceholders input lookup

theorem expandAll_noOpen (input : GoStr) (lookup : GoStr → Option GoStr)
    (h : findDollarBrace input = none) :
    expandAllPlaceholders input lookup = .ok input := by
  rw [expandAllPlaceholders]
  split
  · rfl
  · rename_i pre afterOpen hfd
    rw [h] at hfd
    cases hfd

theorem expandAll_noClose (input pre afterOpen : GoStr)
    (lookup : GoStr → Option GoStr)
    (h1 : findDollarBrace input = some (pre, afterOpen))
    (h2 : splitOnFirstChar '}' afterOpen = none) :
    expandAllPlaceholders input lookup = .error "placeholder not closed" := by
  rw [expandAllPlaceholders]
  split
  · rename_i hfd
    rw [h1] at hfd
    cases hfd
  · rename_i pre2 af2 hfd
    rw [h1] at hfd
    injection hfd with hf
    injection hf with hfa hfb
    subst hfa
    subst hfb
    split
    · rfl
    · rename_i rawExpr rest hsp
      rw [h2] at hsp
      cases hsp

theorem expandAll_step (input pre afterOpen rawExpr rest : GoStr)
    (lookup : GoStr → Option GoStr)
    (h1 : findDollarBrace input = some (pre, afterOpen))
    (h2 : splitOnFirstChar '}' afterOpen = some (rawExpr, rest)) :
    expandAllPlaceholders input lookup =
      (match expandSinglePlaceholder rawExpr lookup with
       | .error e => .error e
       | .ok expanded =>
           match expandAllPlaceholders rest lookup with
           | .error e => .error e
           | .ok tail => .ok (pre ++ expanded ++ tail)) := by
  rw [expandAllPlaceholders]
  split
  · rename_i hfd
    rw [h1] at hfd
    cases hfd
  · rename_i pre2 af2 hfd
    rw [h1] at hfd
    injection hfd with hf
    injection hf with hfa hfb
    subst hfa
    subst hfb
    split
    · rename_i hsp
      rw [h2] at hsp
      cases hsp
    · rename_i rawExpr2 rest2 hsp
      rw [h2] at hsp
      injection hsp with hs
      injection hs with hsa hsb
      subst hsa
      subst hsb
      rfl

theorem expandAll_unterminated_aux (n : Nat) : ∀ (input : GoStr),
    input.length ≤ n → ∀ (lookup : GoStr → Option GoStr) (a b : GoStr),
    input = a ++ '$' :: '{' :: b → '}' ∉ b →
    ∃ e, expandAllPlaceholders input lookup = .error e := by
  induction n with
  | zero =>
      intro input hlen lookup a b heq hnb
      rw [heq] at hlen
      simp at hlen
  | succ n ih =>
      intro input hlen lookup a b heq hnb
      cases hfd : findDollarBrace input with
      | none => exact absurd ⟨a, b, heq⟩ (findDollarBrace_none input hfd)
      | some pr =>
          obtain ⟨pre, afterOpen⟩ := pr
          have hinput := findDollarBrace_eq input pre afterOpen hfd
          have hpre := findDollarBrace_pre input pre afterOpen hfd
          cases hsp : splitOnFirstChar '}' afterOpen with
          | none =>
              exact ⟨_, expandAll_noClose input pre afterOpen lookup hfd hsp⟩
          | some pr2 =>
              obtain ⟨rawExpr, rest⟩ := pr2
              obtain ⟨hout, hnc⟩ := splitOnFirstChar_eq '}' afterOpen rawExpr rest hsp
              have hcomb : pre ++ '$' :: '{' :: afterOpen = a ++ '$' :: '{' :: b := by
                rw [← hinput, heq]
              rcases occSplit pre afterOpen a b hcomb hpre with ⟨ha, hb⟩ |
                ⟨c, hac, haf⟩
              · subst hb
                rw [hout] at hnb
                simp at hnb
              · have hce : rawExpr ++ '}' :: rest = c ++ '$' :: '{' :: b := by
                  rw [← hout, haf]
                obtain ⟨d, hcd, hrest⟩ := closeSplit rawExpr rest c b hce hnc hnb
                have hlen2 : rest.length ≤ n := by
                  have h1 := congrArg List.length hinput
                  have h2 := congrArg List.length hout
                  simp at h1 h2
                  omega
                rw [expandAll_step input pre afterOpen rawExpr rest lookup hfd hsp]
                cases hex : expandSinglePlaceholder rawExpr lookup with
                | error e => exact ⟨e, rfl⟩
                | ok expanded =>
                    obtain ⟨e, herr⟩ := ih rest hlen2 lookup d b hrest hnb
                    rw [herr]
                    exact ⟨e, rfl⟩

/-- C8: `Expand` on input without a `${` substring returns the input
unchanged for every lookup function (the scan never reaches a lookup call,
so the result is uniform in `lookup`), and on input containing a `${` with
no later `}` it returns an error. -/
theorem expand_no_open_or_unterminated :
    (∀ (input : GoStr) (lookup : GoStr → Option GoStr), ¬ hasDB input →
      DefaultVariableExpander.Expand input lookup = .ok input) ∧
    (∀ (input : GoStr) (lookup : GoStr → Option GoStr) (a b : GoStr),
      input = a ++ '$' :: '{' :: b → '}' ∉ b →
      ∃ e, DefaultVariableExpander.Expand input lookup = .error e) := by
  constructor
  · intro input lookup hn
    rw [DefaultVariableExpander.Expand]
    cases hfd : findDollarBrace input with
    | none => simp [hfd]
    | some pr =>
        obtain ⟨pre, afterOpen⟩ := pr
        exact absurd ⟨pre, afterOpen, findDollarBrace_eq input pre afterOpen hfd⟩ hn
  · intro input lookup a b heq hnb
    rw [DefaultVariableExpander.Expand]
    cases hfd : findDollarBrace input with
    | none => exact absurd ⟨a, b, heq⟩ (findDollarBrace_none input hfd)
    | some pr =>
        have hne : input ≠ [] := by
          rw [heq]
          simp
        rw [if_neg ?_]
        · exact expandAll_unterminated_aux input.length input (le_refl _)
            lookup a b heq hnb
        · simp [hne]

/-- Witness for C8: a plain string passes through unchanged, and a bare
unterminated opener fails. -/
theorem expand_no_open_or_unterminated_witness :
    DefaultVariableExpander.Expand ['a', 'b'] (fun _ => some ['x']) = .ok ['a', 'b'] ∧
    (∃ e, DefaultVariableExpander.Expand ['a', '$', '{', 'b']
      (fun _ => some ['x']) = .error e) := by
  constructor
  · exact expand_no_open_or_unterminated.1 ['a', 'b'] (fun _ => some ['x'])
      (findDollarBrace_none ['a', 'b'] rfl)
  · exact expand_no_open_or_unterminated.2 ['a', '$', '{', 'b']
      (fun _ => some ['x']) ['a'] ['b'] rfl (by decide)

/-! ## Trim and split facts used to analyse placeholder expressions -/

theorem dropWhile_eq_self_of_head (p : Char → Bool) (l : GoStr)
    (h : ∀ c, l.head? = some c → p c = false) : l.dropWhile p = l := by
  cases l with
  | nil => rfl
  | cons x t =>
      have hx := h x rfl
      simp [List.dropWhile, hx]

theorem head_of_dropWhile_eq_self (p : Char → Bool) (l : GoStr)
    (h : l.dropWhile p = l) : ∀ c, l.head? = some c → p c = false := by
  intro c hc
  cases l with
  | nil => cases hc
  | cons x t =>
      injection hc with hc
      subst hc
      by_contra hp
      rw [List.dropWhile_cons, if_pos (by simpa using hp)] at h
      have hle := (List.dropWhile_suffix (l := t) (p := p)).length_le
      have h2 := congrArg List.length h
      simp at h2
      omega

theorem trimLeft_eq_self_iff (l : GoStr) :
    goTrimLeftSpace l = l ↔ ∀ c, l.head? = some c → goIsSpace c = false := by
  constructor
  · exact head_of_dropWhile_eq_self goIsSpace l
  · exact dropWhile_eq_self_of_head goIsSpace l

theorem trimRight_eq_self_iff (l : GoStr) :
    goTrimRightP goIsSpace l = l ↔
      ∀ c, l.getLast? = some c → goIsSpace c = false := by
  rw [goTrimRightP]
  constructor
  · intro h c hc
    have h2 : l.reverse.dropWhile goIsSpace = l.reverse := by
      have := congrArg List.reverse h
      simpa using this
    exact head_of_dropWhile_eq_self goIsSpace l.reverse h2 c
      (by rw [List.head?_reverse]; exact hc)
  · intro h
    have h2 : l.reverse.dropWhile goIsSpace = l.reverse :=
      dropWhile_eq_self_of_head goIsSpace l.reverse
        (fun c hc => h c (by rw [← List.head?_reverse]; exact hc))
    rw [h2]
    simp

theorem goTrimSpace_eq_self_iff (l : GoStr) :
    goTrimSpace l = l ↔
      ((∀ c, l.head? = some c → goIsSpace c = false) ∧
       (∀ c, l.getLast? = some c → goIsSpace c = false)) := by
  constructor
  · intro h
    have hlen1 := congrArg List.length h
    have hl2 : (goTrimLeftSpace l).length ≤ l.length := by
      simpa [goTrimLeftSpace] using
        (List.dropWhile_suffix (l := l) (p := goIsSpace)).length_le
    have hr2 : (goTrimRightP goIsSpace (goTrimLeftSpace l)).length ≤
        (goTrimLeftSpace l).length := by
      simp only [goTrimRightP, List.length_reverse]
      have := (List.dropWhile_suffix (l := (goTrimLeftSpace l).reverse)
        (p := goIsSpace)).length_le
      simpa using this
    rw [goTrimSpace] at hlen1
    have hleq : (goTrimLeftSpace l).length = l.length := by omega
    have hl : goTrimLeftSpace l = l :=
      (List.dropWhile_suffix (l := l) (p := goIsSpace)).eq_of_length
        (by simpa [goTrimLeftSpace] using hleq)
    have hr : goTrimRightP goIsSpace l = l := by
      rw [goTrimSpace, hl] at h
      exact h
    exact ⟨(trimLeft_eq_self_iff l).mp hl, (trimRight_eq_self_iff l).mp hr⟩
  · rintro ⟨h1, h2⟩
    have hl := (trimLeft_eq_self_iff l).mpr h1
    have hr := (trimRight_eq_self_iff l).mpr h2
    rw [goTrimSpace, hl, hr]

theorem head?_append_left (a b : GoStr) (ha : a ≠ []) :
    (a ++ b).head? = a.head? := by
  cases a with
  | nil => exact absurd rfl ha
  | cons x t => rfl

theorem getLast?_append_right (a b : GoStr) (hb : b ≠ []) :
    (a ++ b).getLast? = b.getLast? := by
  rw [← List.head?_reverse, ← List.head?_reverse]
  rw [List.reverse_append]
  exact head?_append_left b.reverse a.reverse (by simpa using hb)

theorem goTrimSpace_append_clean (a b : GoStr) (ha : a ≠ []) (hb : b ≠ [])
    (hta : goTrimSpace a = a) (htb : goTrimSpace b = b) :
    goTrimSpace (a ++ b) = a ++ b := by
  obtain ⟨ha1, ha2⟩ := (goTrimSpace_eq_self_iff a).mp hta
  obtain ⟨hb1, hb2⟩ := (goTrimSpace_eq_self_iff b).mp htb
  refine (goTrimSpace_eq_self_iff (a ++ b)).mpr ⟨?_, ?_⟩
  · intro c hc
    rw [head?_append_left a b ha] at hc
    exact ha1 c hc
  · intro c hc
    rw [getLast?_append_right a b hb] at hc
    exact hb2 c hc

theorem takeWhile_append_marker (p : Char → Bool) (a : GoStr) (c : Char)
    (b : GoStr) (ha : ∀ x ∈ a, p x = true) (hc : p c = false) :
    (a ++ c :: b).takeWhile p = a ∧ (a ++ c :: b).dropWhile p = c :: b := by
  induction a with
  | nil => simp [List.takeWhile, List.dropWhile, hc]
  | cons x t ih =>
      have hx := ha x (List.mem_cons_self x t)
      have hrest := ih (fun y hy => ha y (List.mem_cons_of_mem x hy))
      simp only [List.cons_append, List.takeWhile_cons, List.dropWhile_cons,
        hx, if_pos]
      exact ⟨by rw [hrest.1], by rw [hrest.2]⟩

theorem findIdx?_append_marker (p : Char → Bool) (a : GoStr) (c : Char)
    (b : GoStr) (ha : ∀ x ∈ a, p x = false) (hc : p c = true) :
    List.findIdx? p (a ++ c :: b) = some a.length := by
  induction a with
  | nil => simp [List.findIdx?_cons, hc]
  | cons x t ih =>
      have hx := ha x (List.mem_cons_self x t)
      have hrest := ih (fun y hy => ha y (List.mem_cons_of_mem x hy))
      simp [List.findIdx?_cons, hx, hrest]

/-- C4: resolution of a single placeholder `source.key` or
`source.key|default`: the lookup name is `key` verbatim when `source` is
`env` and `UPPER(source)_UPPER(key)` otherwise; a hit substitutes the
looked-up value; a miss substitutes the default (empty when none is given)
and is never an error. -/
theorem expandSingle_resolution (src key d : GoStr)
    (lookup : GoStr → Option GoStr)
    (hsrcne : src ≠ []) (hkeyne : key ≠ [])
    (hsrct : goTrimSpace src = src) (hkeyt : goTrimSpace key = key)
    (hdt : goTrimSpace d = d)
    (hnd : '.' ∉ src) (hps : '|' ∉ src) (hpk : '|' ∉ key) :
    expandSinglePlaceholder (src ++ '.' :: key) lookup =
      .ok (match lookup (if src = "env".data then key
            else goToUpper src ++ '_' :: goToUpper key) with
          | some v => v
          | none => []) ∧
    expandSinglePlaceholder ((src ++ '.' :: key) ++ '|' :: d) lookup =
      .ok (match lookup (if src = "env".data then key
            else goToUpper src ++ '_' :: goToUpper key) with
          | some v => v
          | none => d) := by
  have hkparts := (goTrimSpace_eq_self_iff key).mp hkeyt
  have hmainne : src ++ '.' :: key ≠ [] := by simp [hsrcne]
  have hdotkeyt : goTrimSpace ('.' :: key) = '.' :: key := by
    apply (goTrimSpace_eq_self_iff _).mpr
    constructor
    · intro c hc
      injection hc with hc
      subst hc
      rfl
    · intro c hc
      rw [show ('.' :: key : GoStr) = ['.'] ++ key from rfl,
        getLast?_append_right ['.'] key hkeyne] at hc
      exact hkparts.2 c hc
  have hrawt : goTrimSpace (src ++ '.' :: key) = src ++ '.' :: key :=
    goTrimSpace_append_clean src ('.' :: key) hsrcne (by simp) hsrct hdotkeyt
  have hidx : List.findIdx? (· = '.') (src ++ '.' :: key) = some src.length :=
    findIdx?_append_marker _ src '.' key
      (fun x hx => by
        simp only [decide_eq_false_iff_not]
        exact fun h => hnd (h ▸ hx))
      (by simp)
  have hlp : 0 < src.length := List.length_pos.mpr hsrcne
  have hdot : ¬ (goIndexChar (src ++ '.' :: key) '.' ≤ 0) := by
    rw [goIndexChar, hidx]
    simp only [not_le]
    exact_mod_cast hlp
  have htw := takeWhile_append_marker (fun c => c ≠ '.') src '.' key
    (fun x hx => by
      simp only [decide_eq_true_eq]
      exact fun h => hnd (h ▸ hx))
    (by simp)
  have hnc : containsChar (src ++ '.' :: key) '|' = false := by
    rw [containsChar, List.any_eq_false]
    intro x hx
    have hxne : x ≠ '|' := by
      rcases List.mem_append.mp hx with hx | hx
      · exact fun h => hps (h ▸ hx)
      · rcases List.mem_cons.mp hx with hx | hx
        · rw [hx]
          decide
        · exact fun h => hpk (h ▸ hx)
    simp [hxne]
  constructor
  · simp only [expandSinglePlaceholder, hrawt, hmainne, if_neg, hnc,
      Bool.false_eq_true, if_false, hdot, htw.1, htw.2, List.drop_succ_cons,
      List.drop_zero, hsrct, hkeyt]
    rw [if_neg (by simp [hsrcne, hkeyne])]
    cases hlk : lookup (if src = "env".data then key
        else goToUpper src ++ '_' :: goToUpper key) with
    | some v => rfl
    | none => rfl
  · have hpipedt : goTrimSpace ('|' :: d) = '|' :: d := by
      apply (goTrimSpace_eq_self_iff _).mpr
      constructor
      · intro c hc
        injection hc with hc
        subst hc
        rfl
      · intro c hc
        cases hd0 : d with
        | nil =>
            subst hd0
            injection hc with hc
            subst hc
            rfl
        | cons y t =>
            rw [show ('|' :: d : GoStr) = ['|'] ++ d from rfl,
              getLast?_append_right ['|'] d (by rw [hd0]; simp)] at hc
            exact ((goTrimSpace_eq_self_iff d).mp hdt).2 c hc
    have hrawt2 : goTrimSpace ((src ++ '.' :: key) ++ '|' :: d) =
        (src ++ '.' :: key) ++ '|' :: d :=
      goTrimSpace_append_clean (src ++ '.' :: key) ('|' :: d) hmainne
        (by simp) hrawt hpipedt
    have hne2 : (src ++ '.' :: key) ++ '|' :: d ≠ [] := by simp
    have hcc : containsChar ((src ++ '.' :: key) ++ '|' :: d) '|' = true := by
      simp only [containsChar, List.any_eq_true]
      exact ⟨'|', by simp, by simp⟩
    have htwp := takeWhile_append_marker (fun c => c ≠ '|') (src ++ '.' :: key)
      '|' d
      (fun x hx => by
        simp only [decide_eq_true_eq]
        rcases List.mem_append.mp hx with hx | hx
        · exact fun h => hps (h ▸ hx)
        · rcases List.mem_cons.mp hx with hx | hx
          · rw [hx]
            decide
          · exact fun h => hpk (h ▸ hx))
      (by simp)
    simp only [expandSinglePlaceholder, hrawt2, hcc, if_true, htwp.1, htwp.2,
      List.drop_succ_cons, List.drop_zero, hrawt, hdt, hdot, htw.1, htw.2,
      hsrct, hkeyt, hne2]
    rw [if_neg (show ¬ False from not_false),
      if_neg (by simp [hsrcne, hkeyne] : ¬ (src = [] ∨ key = []))]
    cases hlk : lookup (if src = "env".data then key
        else goToUpper src ++ '_' :: goToUpper key) with
    | some v => rfl
    | none =>
        by_cases hd0 : d = []
        · subst hd0
          rfl
        · simp [hd0]

/-- Witness for C4: `redis.PORT|6379` queries `REDIS_PORT`; with a lookup
that hits it substitutes the hit, with one that misses it substitutes the
default. -/
theorem expandSingle_resolution_witness :
    expandSinglePlaceholder
        (("redis".data ++ '.' :: "PORT".data) ++ '|' :: "6379".data)
        (fun n => if n = "REDIS_PORT".data then some "1234".data else none) =
      .ok "1234".data ∧
    expandSinglePlaceholder
        (("redis".data ++ '.' :: "PORT".data) ++ '|' :: "6379".data)
        (fun _ => none) =
      .ok "6379".data := by
  constructor
  · have h := (expandSingle_resolution "redis".data "PORT".data "6379".data
      (fun n => if n = "REDIS_PORT".data then some "1234".data else none)
      (by decide) (by decide) (by decide) (by decide) (by decide)
      (by decide) (by decide) (by decide)).2
    rw [h]
    rfl
  · have h := (expandSingle_resolution "redis".data "PORT".data "6379".data
      (fun _ => none)
      (by decide) (by decide) (by decide) (by decide) (by decide)
      (by decide) (by decide) (by decide)).2
    rw [h]

/-! ## `DefaultConfig.Load`: sources, decoders, the aggregation loop -/

/-- Models the `Metadata` struct. -/
structure Metadata where
  Format : String
  Source : String
deriving Repr, DecidableEq

/-- Models the triple a `Source.Load()` call returns (`raw`, `meta`,
`err`); a `Source` is represented by this observed result, and a nil
source in the variadic slice by `none` at the call site. -/
structure SourceResult where
  raw : GoStr
  meta : Metadata
  err : Option String
deriving DecidableEq

/-- The errors `DefaultConfig.Load` can return, one constructor per
`fmt.Errorf` call site, carrying exactly the data the Go message
interpolates (`%w`-wrapped causes as `cause`). -/
inductive LoadErr where
  | loadSource (sourceName cause : String)
  | noDecoder (format : String)
  | decodeSource (sourceName cause : String)
  | mergeSource (sourceName cause : String)
  | expandEnv (cause : String)
deriving Repr, DecidableEq

/-- The source display name interpolated into the error message, when the
message has one. -/
def LoadErr.errName : LoadErr → Option String
  | .loadSource n _ => some n
  | .decodeSource n _ => some n
  | .mergeSource n _ => some n
  | .noDecoder _ => none
  | .expandEnv _ => none

/-- The `%w`-wrapped cause inside the error, when there is one. -/
def LoadErr.errCause : LoadErr → Option String
  | .loadSource _ c => some c
  | .decodeSource _ c => some c
  | .mergeSource _ c => some c
  | .expandEnv c => some c
  | .noDecoder _ => none

mutual

/-- Models `expandMapInPlace`: expand every string leaf of the tree,
recursing into nested maps and into maps and strings inside lists (one
level of list nesting, exactly as the Go switch does); other values pass
through.  The Go function mutates in place; here the rebuilt tree is
returned. -/
def expandMapInPlace (exp : ExpanderFn) (lookup : GoStr → Option GoStr) :
    GoTree → Except String GoTree
  | [] => .ok []
  | (k, v) :: rest =>
      match v with
      | .vStr s =>
          match exp s.data lookup with
          | .error e => .error e
          | .ok out =>
              match expandMapInPlace exp lookup rest with
              | .error e => .error e
              | .ok rest2 => .ok ((k, .vStr (String.mk out)) :: rest2)
      | .vMap sub =>
          match expandMapInPlace exp lookup sub with
          | .error e => .error e
          | .ok sub2 =>
              match expandMapInPlace exp lookup rest with
              | .error e => .error e
              | .ok rest2 => .ok ((k, .vMap sub2) :: rest2)
      | .vList xs =>
          match expandListItems exp lookup xs with
          | .error e => .error e
          | .ok xs2 =>
              match expandMapInPlace exp lookup rest with
              | .error e => .error e
              | .ok rest2 => .ok ((k, .vList xs2) :: rest2)
      | other =>
          match expandMapInPlace exp lookup rest with
          | .error e => .error e
          | .ok rest2 => .ok ((k, other) :: rest2)
termination_by m => sizeOf m
decreasing_by
  all_goals simp_wf
  all_goals omega

/-- The inner loop of `expandMapInPlace` over one `[]any` value. -/
def expandListItems (exp : ExpanderFn) (lookup : GoStr → Option GoStr) :
    List GoVal → Except String (List GoVal)
  | [] => .ok []
  | item :: rest =>
      match item with
      | .vStr s =>
          match exp s.data lookup with
          | .error e => .error e
          | .ok out =>
              match expandListItems exp lookup rest with
              | .error e => .error e
              | .ok rest2 => .ok (.vStr (String.mk out) :: rest2)
      | .vMap sub =>
          match expandMapInPlace exp lookup sub with
          | .error e => .error e
          | .ok sub2 =>
              match expandListItems exp lookup rest with
              | .error e => .error e
              | .ok rest2 => .ok (.vMap sub2 :: rest2)
      | other =>
          match expandListItems exp lookup rest with
          | .error e => .error e
          | .ok rest2 => .ok (other :: rest2)
termination_by xs => sizeOf xs
decreasing_by
  all_goals simp_wf
  all_goals omega

end

/-- The per-source loop of `DefaultConfig.Load`: skip nil sources, wrap a
source load error, look the decoder up under the lowercased declared
format, decode, merge into the accumulator. -/
def loadLoop (c : DefaultConfig) (tmp : GoTree) :
    List (Option SourceResult) → Except LoadErr GoTree
  | [] => .ok tmp
  | none :: rest => loadLoop c tmp rest
  | some r :: rest =>
      match r.err with
      | some e => .error (.loadSource r.meta.Source e)
      | none =>
          match alookup c.decoders (goToLowerS r.meta.Format) with
          | none => .error (.noDecoder (goToLowerS r.meta.Format))
          | some dec =>
              match dec r.raw with
              | .error e => .error (.decodeSource r.meta.Source e)
              | .ok m =>
                  match c.merge tmp m with
                  | .error e => .error (.mergeSource r.meta.Source e)
                  | .ok tmp2 => loadLoop c tmp2 rest

/-- The placeholder-expansion phase of `Load` (`c.envExpand && c.expander
!= nil` guard, env-prefixed lookup, `expandMapInPlace`). -/
def loadExpandPhase (c : DefaultConfig) (env : GoStr → Option GoStr)
    (tmp : GoTree) : Except LoadErr GoTree :=
  if c.envExpand then
    match c.expander with
    | some exp =>
        let lookup := fun name =>
          if c.envPfx ≠ "" then env (c.envPfx.data ++ name) else env name
        match expandMapInPlace exp lookup tmp with
        | .error e => .error (.expandEnv e)
        | .ok tmp2 => .ok tmp2
    | none => .ok tmp
  else .ok tmp

/-- Models `DefaultConfig.Load`: zero sources return immediately; otherwise
fold the sources into a fresh accumulator, expand placeholders, and only
then commit the new tree.  `env` models `os.LookupEnv`.  The Go method
mutates the receiver under its mutex; here the updated (or untouched)
configuration is returned next to the error. -/
def DefaultConfig.Load (c : DefaultConfig)
    (sources : List (Option SourceResult)) (env : GoStr → Option GoStr) :
    Option LoadErr × DefaultConfig :=
  if sources = [] then (none, c)
  else
    match loadLoop c [] sources with
    | .error e => (some e, c)
    | .ok tmp =>
        match loadExpandPhase c env tmp with
        | .error e => (some e, c)
        | .ok tmp2 => (none, { c with data := tmp2 })

/-- Models `normalizeFormat`: trim, lowercase, and map `yml` to `yaml`.
(Applied by the source constructors `WithHTTPSourceFormat`,
`WithEtcdSourceFormat`, `WithApolloFormat` — not by `Load`.) -/
def normalizeFormat (format : String) : String :=
  let f := goToLowerS (String.mk (goTrimSpace format.data))
  if f = "yml" then "yaml" else f

theorem loadLoop_err_shape (c : DefaultConfig) :
    ∀ (srcs : List (Option SourceResult)) (tmp : GoTree) (e : LoadErr),
    loadLoop c tmp srcs = .error e →
    ∃ r, some r ∈ srcs ∧
      ((∃ cause, e = .loadSource r.meta.Source cause ∧ r.err = some cause) ∨
       (e = .noDecoder (goToLowerS r.meta.Format) ∧
         alookup c.decoders (goToLowerS r.meta.Format) = none) ∨
       (∃ cause, e = .decodeSource r.meta.Source cause) ∨
       (∃ cause, e = .mergeSource r.meta.Source cause)) := by
  intro srcs
  induction srcs with
  | nil =>
      intro tmp e h
      cases h
  | cons hd rest ih =>
      intro tmp e h
      cases hd with
      | none =>
          rw [loadLoop] at h
          obtain ⟨r, hmem, hshape⟩ := ih tmp e h
          exact ⟨r, List.mem_cons_of_mem _ hmem, hshape⟩
      | some r =>
          rw [loadLoop] at h
          cases herr : r.err with
          | some cause =>
              simp only [herr] at h
              injection h with h2
              exact ⟨r, List.mem_cons_self _ _,
                Or.inl ⟨cause, h2.symm, herr⟩⟩
          | none =>
              simp only [herr] at h
              cases hdec : alookup c.decoders (goToLowerS r.meta.Format) with
              | none =>
                  simp only [hdec] at h
                  injection h with h2
                  exact ⟨r, List.mem_cons_self _ _,
                    Or.inr (Or.inl ⟨h2.symm, hdec⟩)⟩
              | some dec =>
                  simp only [hdec] at h
                  cases hd2 : dec r.raw with
                  | error cause =>
                      simp only [hd2] at h
                      injection h with h2
                      exact ⟨r, List.mem_cons_self _ _,
                        Or.inr (Or.inr (Or.inl ⟨cause, h2.symm⟩))⟩
                  | ok m =>
                      simp only [hd2] at h
                      cases hm : c.merge tmp m with
                      | error cause =>
                          simp only [hm] at h
                          injection h with h2
                          exact ⟨r, List.mem_cons_self _ _,
                            Or.inr (Or.inr (Or.inr ⟨cause, h2.symm⟩))⟩
                      | ok tmp2 =>
                          simp only [hm] at h
                          obtain ⟨r2, hmem, hshape⟩ := ih tmp2 e h
                          exact ⟨r2, List.mem_cons_of_mem _ hmem, hshape⟩

theorem loadExpandPhase_err_shape (c : DefaultConfig)
    (env : GoStr → Option GoStr) (tmp : GoTree) (e : LoadErr)
    (h : loadExpandPhase c env tmp = .error e) :
    ∃ cause, e = .expandEnv cause := by
  rw [loadExpandPhase] at h
  by_cases hx : c.envExpand
  · rw [if_pos hx] at h
    cases hex : c.expander with
    | none =>
        rw [hex] at h
        cases h
    | some exp =>
        rw [hex] at h
        dsimp only at h
        cases hem : expandMapInPlace exp
            (fun name => if c.envPfx ≠ "" then env (c.envPfx.data ++ name)
              else env name) tmp with
        | error cause =>
            rw [hem] at h
            injection h with h2
            exact ⟨cause, h2.symm⟩
        | ok tmp2 =>
            rw [hem] at h
            cases h
  · rw [if_neg hx] at h
    cases h

/-- C1 (amended): any failing step makes `Load` return a non-nil error and
leave the published configuration untouched — `Get`, `Keys` and the typed
accessors answer exactly as before the call; full success commits exactly
the freshly merged and expanded accumulator.  A source-load error names the
source recorded in the metadata returned with the failure and wraps the
cause, and decode and merge errors name the source and wrap the cause;
the missing-decoder error names only the lowercased declared format and
wraps nothing; the expansion error wraps the cause without a source name. -/
theorem load_failfast_atomic (c : DefaultConfig)
    (sources : List (Option SourceResult)) (env : GoStr → Option GoStr) :
    (∀ e, (c.Load sources env).1 = some e →
      (c.Load sources env).2 = c ∧
      (∀ p, ((c.Load sources env).2).Get p = c.Get p) ∧
      ((c.Load sources env).2).Keys = c.Keys ∧
      (∀ p, ((c.Load sources env).2).GetBool p = c.GetBool p)) ∧
    ((c.Load sources env).1 = none →
      (sources = [] → (c.Load sources env).2 = c) ∧
      (sources ≠ [] → ∃ tmp tmp2, loadLoop c [] sources = .ok tmp ∧
        loadExpandPhase c env tmp = .ok tmp2 ∧
        (c.Load sources env).2 = { c with data := tmp2 })) ∧
    (∀ e, (c.Load sources env).1 = some e →
      ((∃ r, some r ∈ sources ∧
         ((∃ cause, e = .loadSource r.meta.Source cause ∧
             r.err = some cause ∧ e.errName = some r.meta.Source ∧
             e.errCause = some cause) ∨
          (e = .noDecoder (goToLowerS r.meta.Format) ∧
             alookup c.decoders (goToLowerS r.meta.Format) = none ∧
             e.errName = none ∧ e.errCause = none) ∨
          (∃ cause, e = .decodeSource r.meta.Source cause ∧
             e.errName = some r.meta.Source ∧ e.errCause = some cause) ∨
          (∃ cause, e = .mergeSource r.meta.Source cause ∧
             e.errName = some r.meta.Source ∧ e.errCause = some cause))) ∨
       (∃ cause, e = .expandEnv cause ∧ e.errName = none ∧
          e.errCause = some cause))) := by
  by_cases hs : sources = []
  · subst hs
    refine ⟨?_, ?_, ?_⟩
    · intro e he
      rw [DefaultConfig.Load, if_pos rfl] at he
      cases he
    · intro _
      refine ⟨fun _ => ?_, fun hne => absurd rfl hne⟩
      rw [DefaultConfig.Load, if_pos rfl]
    · intro e he
      rw [DefaultConfig.Load, if_pos rfl] at he
      cases he
  · have hload : c.Load sources env =
        (match loadLoop c [] sources with
         | .error e => (some e, c)
         | .ok tmp =>
             match loadExpandPhase c env tmp with
             | .error e => (some e, c)
             | .ok tmp2 => (none, { c with data := tmp2 })) := by
      rw [DefaultConfig.Load, if_neg hs]
    cases hloop : loadLoop c [] sources with
    | error e0 =>
        rw [hloop] at hload
        dsimp only at hload
        refine ⟨?_, ?_, ?_⟩
        · intro e he
          rw [hload]
          exact ⟨rfl, fun p => rfl, rfl, fun p => rfl⟩
        · intro hnone
          rw [hload] at hnone
          cases hnone
        · intro e he
          rw [hload] at he
          injection he with h2
          subst h2
          obtain ⟨r, hmem, hshape⟩ := loadLoop_err_shape c sources [] e0 hloop
          refine Or.inl ⟨r, hmem, ?_⟩
          rcases hshape with ⟨cause, he2, herr⟩ | ⟨he2, hdec⟩ |
            ⟨cause, he2⟩ | ⟨cause, he2⟩
          · subst he2
            exact Or.inl ⟨cause, rfl, herr, rfl, rfl⟩
          · subst he2
            exact Or.inr (Or.inl ⟨rfl, hdec, rfl, rfl⟩)
          · subst he2
            exact Or.inr (Or.inr (Or.inl ⟨cause, rfl, rfl, rfl⟩))
          · subst he2
            exact Or.inr (Or.inr (Or.inr ⟨cause, rfl, rfl, rfl⟩))
    | ok tmp =>
        rw [hloop] at hload
        dsimp only at hload
        cases hexp : loadExpandPhase c env tmp with
        | error e0 =>
            rw [hexp] at hload
            dsimp only at hload
            refine ⟨?_, ?_, ?_⟩
            · intro e he
              rw [hload]
              exact ⟨rfl, fun p => rfl, rfl, fun p => rfl⟩
            · intro hnone
              rw [hload] at hnone
              cases hnone
            · intro e he
              rw [hload] at he
              injection he with h2
              subst h2
              obtain ⟨cause, he2⟩ := loadExpandPhase_err_shape c env tmp e0 hexp
              subst he2
              exact Or.inr ⟨cause, rfl, rfl, rfl⟩
        | ok tmp2 =>
            rw [hexp] at hload
            dsimp only at hload
            refine ⟨?_, ?_, ?_⟩
            · intro e he
              rw [hload] at he
              cases he
            · intro _
              exact ⟨fun h0 => absurd h0 hs,
                fun _ => ⟨tmp, tmp2, rfl, hexp, by rw [hload]⟩⟩
            · intro e he
              rw [hload] at he
              cases he

/-- A configuration with no registered decoders at all. -/
def cfgNoDec : DefaultConfig :=
  { decoders := [], merge := mergeGo, expander := none, envPfx := "",
    envExpand := false, data := [] }

/-- A source declaring format `json` with display name `file-a`. -/
def srcJson : SourceResult :=
  { raw := [], meta := { Format := "json", Source := "file-a" }, err := none }

/-- Counterexample to C1 as stated: the missing-decoder failure returns an
error that neither wraps an originating error nor carries the offending
source display name (`file-a`) — it names only the format. -/
theorem load_counterexample_noDecoder_error_anonymous :
    (cfgNoDec.Load [some srcJson] (fun _ => none)).1 =
      some (.noDecoder "json") ∧
    LoadErr.errName (.noDecoder "json") = none ∧
    LoadErr.errCause (.noDecoder "json") = none ∧
    srcJson.meta.Source = "file-a" :=
  ⟨rfl, rfl, rfl, rfl⟩

/-- Witness for C1 at the concrete failing load. -/
theorem load_failfast_atomic_witness :
    (cfgNoDec.Load [some srcJson] (fun _ => none)).2 = cfgNoDec ∧
    ((cfgNoDec.Load [some srcJson] (fun _ => none)).2).Keys =
      cfgNoDec.Keys := by
  have h := (load_failfast_atomic cfgNoDec [some srcJson] (fun _ => none)).1
    (.noDecoder "json") (by rfl)
  exact ⟨h.1, h.2.2.1⟩

/-- C2 (amended): `Load` selects the decoder by exact equality of the
lowercased `Metadata.Format` against the registered tags and fails when
that lookup misses — no `yml` to `yaml` normalization is applied there;
`normalizeFormat` (trim, lowercase, `yml` to `yaml`) is applied only by
the explicit per-source format options at construction time. -/
theorem load_decoder_selection (c : DefaultConfig) (r : SourceResult)
    (rest : List (Option SourceResult)) (tmp : GoTree)
    (herr : r.err = none) :
    (alookup c.decoders (goToLowerS r.meta.Format) = none →
      loadLoop c tmp (some r :: rest) =
        .error (.noDecoder (goToLowerS r.meta.Format))) ∧
    (∀ dec, alookup c.decoders (goToLowerS r.meta.Format) = some dec →
      loadLoop c tmp (some r :: rest) =
        (match dec r.raw with
         | .error e => .error (.decodeSource r.meta.Source e)
         | .ok m =>
             match c.merge tmp m with
             | .error e => .error (.mergeSource r.meta.Source e)
             | .ok tmp2 => loadLoop c tmp2 rest)) ∧
    normalizeFormat "yml" = "yaml" ∧
    normalizeFormat " YAML " = "yaml" := by
  refine ⟨?_, ?_, by rfl, by rfl⟩
  · intro hdec
    rw [loadLoop, herr, hdec]
  · intro dec hdec
    rw [loadLoop, herr, hdec]

/-- A configuration with only a `yaml` decoder registered. -/
def cfgYaml : DefaultConfig :=
  { decoders := [("yaml", fun _ => .ok [])], merge := mergeGo,
    expander := none, envPfx := "", envExpand := false, data := [] }

/-- A source declaring format `yml`. -/
def srcYml : SourceResult :=
  { raw := [], meta := { Format := "yml", Source := "f" }, err := none }

/-- A source declaring format `YAML` (case-insensitive match exercises the
lowercase selection). -/
def srcYAMLUpper : SourceResult :=
  { raw := [], meta := { Format := "YAML", Source := "g" }, err := none }

/-- Counterexample to C2 as stated: with a decoder registered under `yaml`,
a source declaring `yml` makes the aggregation fail — `Load` does not
normalize `yml` to `yaml`. -/
theorem load_counterexample_yml_not_normalized :
    (cfgYaml.Load [some srcYml] (fun _ => none)).1 =
      some (.noDecoder "yml") ∧
    akeys cfgYaml.decoders = ["yaml"] :=
  ⟨rfl, rfl⟩

/-- Witness for C2: uppercase `YAML` matches the registered `yaml` decoder
case-insensitively and the aggregation of that source succeeds. -/
theorem load_decoder_selection_witness :
    loadLoop cfgYaml [] [some srcYAMLUpper] = .ok [] ∧
    normalizeFormat "yml" = "yaml" := by
  have h := (load_decoder_selection cfgYaml srcYAMLUpper [] [] rfl).2.1
    (fun _ => .ok []) rfl
  rw [h]
  refine ⟨?_, rfl⟩
  rw [show cfgYaml.merge = mergeGo from rfl]
  rw [show ((fun (_ : GoStr) => (.ok [] : Except String GoTree)) srcYAMLUpper.raw) =
    (.ok [] : Except String GoTree) from rfl]
  dsimp only
  rw [mergeGo_nil]
  rfl

/-! ## The Java-properties grammar: logical lines and unescaping -/

/-- `strings.TrimRight(r, "\r")`: drop every trailing carriage return. -/
def trimRightCR (s : GoStr) : GoStr := goTrimRightP (· = '\r') s

/-- The loop of `splitLogicalLines`: assemble logical lines, treating a
buffer whose last character is a backslash as continued (`strings.HasSuffix
(buf.String(), "\\")`), stripping that single backslash, and left-trimming
continuation lines.  The trailing `if continuation` append models the
post-loop flush. -/
def splitLogicalLoop : List GoStr → GoStr → Bool → List GoStr
  | [], buf, continuation => if continuation then [buf] else []
  | r :: raws, buf, continuation =>
      let line := trimRightCR r
      let buf2 := if continuation then buf ++ goTrimLeftSpace line
        else goTrimSpace line
      if buf2.getLast? = some '\\' then
        splitLogicalLoop raws buf2.dropLast true
      else
        buf2 :: splitLogicalLoop raws [] false

/-- Models `splitLogicalLines`. -/
def splitLogicalLines (s : GoStr) : List GoStr :=
  splitLogicalLoop (splitOnChar '\n' s) [] false

theorem splitOnChar_no_sep (sep : Char) (l : GoStr) (h : sep ∉ l) :
    splitOnChar sep l = [l] := by
  induction l with
  | nil => rfl
  | cons c t ih =>
      have hc : ¬ c = sep := fun hh => h (hh ▸ List.mem_cons_self c t)
      have ht := ih (fun hm => h (List.mem_cons_of_mem c hm))
      rw [splitOnChar]
      rw [if_neg hc, ht]

theorem splitOnChar_append (sep : Char) (l1 l2 : GoStr) (h1 : sep ∉ l1) :
    splitOnChar sep (l1 ++ sep :: l2) = l1 :: splitOnChar sep l2 := by
  induction l1 with
  | nil =>
      rw [List.nil_append, splitOnChar, if_pos rfl]
  | cons c t ih =>
      have hc : ¬ c = sep := fun hh => h1 (hh ▸ List.mem_cons_self c t)
      have ht := ih (fun hm => h1 (List.mem_cons_of_mem c hm))
      rw [List.cons_append, splitOnChar, if_neg hc, ht]

/-- Counterexample to C5 as stated: the physical line `a\\` ends in an
even number (two) of trailing backslashes, yet it continues onto the next
line — the continuation check looks only at whether the buffer ends in a
single backslash, so `a\\` followed by `b` assembles to `a\b` instead of
the two logical lines `a\\` and `b`. -/
theorem splitLogical_counterexample_even_backslashes :
    splitLogicalLines ['a', '\\', '\\', '\n', 'b'] = [['a', '\\', 'b']] ∧
    ([['a', '\\', 'b']] : List GoStr) ≠ [['a', '\\', '\\'], ['b']] := by
  refine ⟨by rfl, by decide⟩

/-- C5 (amended): a physical line whose trimmed content ends in one or more
trailing backslashes — any positive number, even counts included —
continues onto the next physical line, with exactly one trailing backslash
removed and the continuation line left-trimmed before concatenation, while
a line ending in zero trailing backslashes terminates its logical line
(stated on every two-line input). -/
theorem splitLogical_backslash_continuation (l1 l2 : GoStr)
    (h1 : '\n' ∉ l1) (h2 : '\n' ∉ l2) :
    ((goTrimSpace (trimRightCR l1) |>.getLast?) = some '\\' →
      ((goTrimSpace (trimRightCR l1)).dropLast ++
          goTrimLeftSpace (trimRightCR l2) |>.getLast?) ≠ some '\\' →
      splitLogicalLines (l1 ++ '\n' :: l2) =
        [(goTrimSpace (trimRightCR l1)).dropLast ++
          goTrimLeftSpace (trimRightCR l2)]) ∧
    ((goTrimSpace (trimRightCR l1) |>.getLast?) ≠ some '\\' →
      (goTrimSpace (trimRightCR l2) |>.getLast?) ≠ some '\\' →
      splitLogicalLines (l1 ++ '\n' :: l2) =
        [goTrimSpace (trimRightCR l1), goTrimSpace (trimRightCR l2)]) := by
  constructor
  · intro hb1 hb2
    rw [splitLogicalLines, splitOnChar_append '\n' l1 l2 h1,
      splitOnChar_no_sep '\n' l2 h2]
    rw [splitLogicalLoop]
    simp only [if_neg, if_pos, Bool.false_eq_true, if_false]
    rw [if_pos hb1]
    rw [splitLogicalLoop]
    simp only [if_pos]
    rw [if_neg hb2]
    rw [splitLogicalLoop]
    rfl
  · intro hb1 hb2
    rw [splitLogicalLines, splitOnChar_append '\n' l1 l2 h1,
      splitOnChar_no_sep '\n' l2 h2]
    rw [splitLogicalLoop]
    simp only [Bool.false_eq_true, if_false]
    rw [if_neg hb1]
    rw [splitLogicalLoop]
    simp only [Bool.false_eq_true, if_false]
    rw [if_neg hb2]
    rw [splitLogicalLoop]
    rfl

/-- Witness for C5 (amended) at a concrete single-backslash continuation. -/
theorem splitLogical_backslash_continuation_witness :
    splitLogicalLines ['a', '\\', '\n', ' ', 'b'] = [['a', 'b']] := by
  have h := (splitLogical_backslash_continuation ['a', '\\'] [' ', 'b']
    (by decide) (by decide)).1 (by rfl) (by decide)
  show splitLogicalLines (['a', '\\'] ++ '\n' :: [' ', 'b']) = [['a', 'b']]
  rw [h]
  rfl

/-- Models `strconv.ParseInt(s, 16, 32)`: optional sign, one or more hex
digits, signed 32-bit range. -/
def goParseIntHex32 (s : GoStr) : Option Int :=
  let signDigits : Int × GoStr :=
    match s with
    | '+' :: rest => (1, rest)
    | '-' :: rest => (-1, rest)
    | _ => (1, s)
  let sgn := signDigits.1
  let ds := signDigits.2
  if ds = [] then none
  else if ds.all isHexDigitC then
    let v : Int := sgn * hexValue ds
    if -(2 ^ 31) ≤ v ∧ v ≤ 2 ^ 31 - 1 then some v else none
  else none

/-- Models `strings.Builder.WriteRune`: a valid rune is appended as is, an
invalid one (negative, surrogate, or beyond U+10FFFF) is appended as the
replacement character U+FFFD. -/
def goWriteRune (n : Int) : GoStr :=
  if (0 ≤ n ∧ n < 0xD800) ∨ (0xE000 ≤ n ∧ n ≤ 0x10FFFF) then
    [Char.ofNat n.toNat]
  else ['\uFFFD']

/-- Models `unescape`, arm for arm along the Go switch: backslash escapes
for tab, newline, carriage return and backslash; `\u` followed by four
characters fed to the hex integer parser (fewer than four remaining
characters is an error); any other escaped character passed through; a
trailing lone backslash is an error; everything else copied verbatim. -/
def unescape : GoStr → Except String GoStr
  | [] => .ok []
  | '\\' :: [] => .error "invalid escape sequence at end of string"
  | '\\' :: 't' :: rest =>
      match unescape rest with
      | .error e => .error e
      | .ok t => .ok ('\t' :: t)
  | '\\' :: 'n' :: rest =>
      match unescape rest with
      | .error e => .error e
      | .ok t => .ok ('\n' :: t)
  | '\\' :: 'r' :: rest =>
      match unescape rest with
      | .error e => .error e
      | .ok t => .ok ('\r' :: t)
  | '\\' :: '\\' :: rest =>
      match unescape rest with
      | .error e => .error e
      | .ok t => .ok ('\\' :: t)
  | '\\' :: 'u' :: h1 :: h2 :: h3 :: h4 :: tail =>
      match goParseIntHex32 [h1, h2, h3, h4] with
      | none => .error "invalid unicode escape"
      | some val =>
          match unescape tail with
          | .error e => .error e
          | .ok t => .ok (goWriteRune val ++ t)
  | '\\' :: 'u' :: _ => .error "invalid unicode escape"
  | '\\' :: c2 :: rest2 =>
      match unescape rest2 with
      | .error e => .error e
      | .ok t => .ok (c2 :: t)
  | c :: rest =>
      match unescape rest with
      | .error e => .error e
      | .ok t => .ok (c :: t)

/-- Counterexample to C7 as stated: `\u+004` does not make the non-hex
character `+` a hard error — the four characters after `u` are fed to the
hexadecimal integer parser, which accepts a leading sign, so `\u+0041`
unescapes to the code point 4 followed by the literal `1`. -/
theorem unescape_counterexample_signed_hex :
    unescape ['\\', 'u', '+', '0', '0', '4', '1'] =
      .ok [Char.ofNat 4, '1'] := by rfl

/-- C7 (amended): `\t`, `\n`, `\r`, `\\` map to their control characters;
`\u` followed by fewer than four characters is a hard error; `\u` followed
by four characters is a hard error exactly when they do not parse as a
(possibly signed) base-16 integer, and otherwise maps to the parsed code
point written rune-wise (surrogates and negatives become U+FFFD); any other
escaped character passes through; a lone final backslash is a hard error;
unescaped characters pass through. -/
theorem unescape_escapes (c h1 h2 h3 h4 : Char) (rest rest2 tail : GoStr)
    (val : Int) :
    (unescape [] = .ok []) ∧
    (c ≠ '\\' → unescape (c :: rest) =
      (match unescape rest with
       | .error e => .error e
       | .ok t => .ok (c :: t))) ∧
    (unescape ['\\'] = .error "invalid escape sequence at end of string") ∧
    (unescape ('\\' :: 't' :: rest) =
      (match unescape rest with
       | .error e => .error e
       | .ok t => .ok ('\t' :: t))) ∧
    (unescape ('\\' :: 'n' :: rest) =
      (match unescape rest with
       | .error e => .error e
       | .ok t => .ok ('\n' :: t))) ∧
    (unescape ('\\' :: 'r' :: rest) =
      (match unescape rest with
       | .error e => .error e
       | .ok t => .ok ('\r' :: t))) ∧
    (unescape ('\\' :: '\\' :: rest) =
      (match unescape rest with
       | .error e => .error e
       | .ok t => .ok ('\\' :: t))) ∧
    (rest2.length < 4 →
      unescape ('\\' :: 'u' :: rest2) = .error "invalid unicode escape") ∧
    (goParseIntHex32 [h1, h2, h3, h4] = none →
      unescape ('\\' :: 'u' :: h1 :: h2 :: h3 :: h4 :: tail) =
        .error "invalid unicode escape") ∧
    (goParseIntHex32 [h1, h2, h3, h4] = some val →
      unescape ('\\' :: 'u' :: h1 :: h2 :: h3 :: h4 :: tail) =
        (match unescape tail with
         | .error e => .error e
         | .ok t => .ok (goWriteRune val ++ t))) ∧
    (c ≠ 't' → c ≠ 'n' → c ≠ 'r' → c ≠ '\\' → c ≠ 'u' →
      unescape ('\\' :: c :: rest) =
        (match unescape rest with
         | .error e => .error e
         | .ok t => .ok (c :: t))) ∧
    (0xD800 ≤ val → val < 0xE000 → goWriteRune val = ['\uFFFD']) := by
  refine ⟨rfl, ?_, rfl, rfl, rfl, rfl, rfl, ?_, ?_, ?_, ?_, ?_⟩
  · intro hc
    simp [unescape, hc]
  · intro hlen
    match rest2, hlen with
    | [], _ => rfl
    | [a], _ => rfl
    | [a, b], _ => rfl
    | [a, b, c3], _ => rfl
    | a :: b :: c3 :: d :: t, hlen =>
        exact absurd hlen (by simp only [List.length_cons]; omega)
  · intro hhex
    simp [unescape, hhex]
  · intro hhex
    simp [unescape, hhex]
  · intro ht hn hr hb hu
    simp [unescape, ht, hn, hr, hb, hu]
  · intro hlo hhi
    rw [goWriteRune, if_neg (by omega)]

/-- Witness for C7 (amended): a plain character, a `\t` escape and a
`\u0041` escape in one input. -/
theorem unescape_escapes_witness :
    unescape ['x', '\\', 't', '\\', 'u', '0', '0', '4', '1', 'y'] =
      .ok ['x', '\t', 'A', 'y'] := by
  have ha := (unescape_escapes 'x' '0' '0' '4' '1'
      ['\\', 't', '\\', 'u', '0', '0', '4', '1', 'y'] [] ['y'] 0x41).2.1
    (by decide)
  rw [ha]
  have hb := (unescape_escapes 'x' '0' '0' '4' '1'
      ['\\', 'u', '0', '0', '4', '1', 'y'] [] ['y'] 0x41).2.2.2.1
  rw [hb]
  have hc := (unescape_escapes 'x' '0' '0' '4' '1' [] [] ['y']
      0x41).2.2.2.2.2.2.2.2.2.1 (by rfl)
  rw [hc]
  rfl

/-! ## The multi-namespace remote source (`ApolloMultiSource`) -/

/-- Models `ApolloNamespaceConfig`. -/
structure ApolloNamespaceConfig where
  Namespace : String
  Format : String

/-- The fallback cache (`ApolloCache`): a namespace-to-bytes map.  `Set` is
`aset`, `Get` is `alookup`; the mutex is concurrency plumbing with no
sequential content. -/
abbrev ApolloCacheData := List (String × GoStr)

/-- The per-namespace loop of `ApolloMultiSource.Load`.  `fetch` models
`fetchNamespace` (network plus Apollo response handling), `unmarshal`
models `json.Unmarshal` of a payload into a generic tree; both are I/O or
library facilities outside this repository and enter as oracles.  A
successful fetch updates the cache; a failed fetch falls back to the
cached payload when one exists and otherwise fails the whole load with the
namespace-naming error.  Returns the result together with the final cache
state. -/
def apolloLoadLoop (fetch : String → Except String GoStr)
    (unmarshal : GoStr → Except String GoTree) :
    List ApolloNamespaceConfig → ApolloCacheData → GoTree →
    Except String GoTree × ApolloCacheData
  | [], cache, final => (.ok final, cache)
  | ns :: rest, cache, final =>
      match fetch ns.Namespace with
      | .error e =>
          match alookup cache ns.Namespace with
          | some cached =>
              match unmarshal cached with
              | .error e2 => (.error e2, cache)
              | .ok data =>
                  apolloLoadLoop fetch unmarshal rest cache
                    (aset final ns.Namespace (.vMap data))
          | none =>
              (.error ("ApolloMultiSource: namespace " ++ ns.Namespace ++
                " load failed: " ++ e), cache)
      | .ok b =>
          match unmarshal b with
          | .error e2 => (.error e2, aset cache ns.Namespace b)
          | .ok data =>
              apolloLoadLoop fetch unmarshal rest (aset cache ns.Namespace b)
                (aset final ns.Namespace (.vMap data))

/-- Models `ApolloMultiSource.Load`: run the loop over all configured
namespaces starting from the current cache, and on success return the
assembled per-namespace tree with JSON metadata.  (`json.Marshal` of the
assembled string-keyed map cannot fail and is modelled as the identity on
the tree.) -/
def ApolloMultiSource.Load (fetch : String → Except String GoStr)
    (unmarshal : GoStr → Except String GoTree) (name : String)
    (namespaces : List ApolloNamespaceConfig) (cache : ApolloCacheData) :
    Except String (GoTree × Metadata) × ApolloCacheData :=
  match apolloLoadLoop fetch unmarshal namespaces cache [] with
  | (.error e, cache2) => (.error e, cache2)
  | (.ok final, cache2) =>
      (.ok (final, { Format := "json", Source := name }), cache2)

/-- C9: per configured namespace, in order: a successful fetch updates that
namespace entry of the cache (and the namespace load proceeds with the
fetched payload); a failed fetch proceeds with the last cached payload when
one exists, leaving the cache unchanged; a failed fetch with no cached
entry fails the whole load, naming the namespace; and when every namespace
fetches and unmarshals cleanly the whole load succeeds. -/
theorem apollo_fallback_cache (fetch : String → Except String GoStr)
    (unmarshal : GoStr → Except String GoTree)
    (ns : ApolloNamespaceConfig) (rest : List ApolloNamespaceConfig)
    (cache : ApolloCacheData) (final : GoTree) :
    (∀ b d, fetch ns.Namespace = .ok b → unmarshal b = .ok d →
      apolloLoadLoop fetch unmarshal (ns :: rest) cache final =
        apolloLoadLoop fetch unmarshal rest (aset cache ns.Namespace b)
          (aset final ns.Namespace (.vMap d)) ∧
      alookup (aset cache ns.Namespace b) ns.Namespace = some b) ∧
    (∀ e cb d, fetch ns.Namespace = .error e →
      alookup cache ns.Namespace = some cb → unmarshal cb = .ok d →
      apolloLoadLoop fetch unmarshal (ns :: rest) cache final =
        apolloLoadLoop fetch unmarshal rest cache
          (aset final ns.Namespace (.vMap d))) ∧
    (∀ e, fetch ns.Namespace = .error e →
      alookup cache ns.Namespace = none →
      apolloLoadLoop fetch unmarshal (ns :: rest) cache final =
        (.error ("ApolloMultiSource: namespace " ++ ns.Namespace ++
          " load failed: " ++ e), cache)) ∧
    (∀ (nss : List ApolloNamespaceConfig) (cache0 : ApolloCacheData)
        (final0 : GoTree),
      (∀ n ∈ nss, ∃ b d, fetch n.Namespace = .ok b ∧ unmarshal b = .ok d) →
      ∃ out cache2, apolloLoadLoop fetch unmarshal nss cache0 final0 =
        (.ok out, cache2)) := by
  refine ⟨?_, ?_, ?_, ?_⟩
  · intro b d hf hu
    rw [apolloLoadLoop]
    simp only [hf, hu]
    exact ⟨trivial, alookup_aset_self cache ns.Namespace b⟩
  · intro e cb d hf hc hu
    rw [apolloLoadLoop]
    simp only [hf, hc, hu]
  · intro e hf hc
    rw [apolloLoadLoop]
    simp only [hf, hc]
  · intro nss
    induction nss with
    | nil =>
        intro cache0 final0 hall
        exact ⟨final0, cache0, rfl⟩
    | cons n2 rest2 ih =>
        intro cache0 final0 hall
        obtain ⟨b, d, hf, hu⟩ := hall n2 (List.mem_cons_self n2 rest2)
        rw [apolloLoadLoop]
        simp only [hf, hu]
        exact ih (aset cache0 n2.Namespace b)
          (aset final0 n2.Namespace (.vMap d))
          (fun n hn => hall n (List.mem_cons_of_mem n2 hn))

/-- Witness for C9: one namespace that fetches, one that falls back to its
cache entry, and the failing namespace with no cache entry. -/
theorem apollo_fallback_cache_witness :
    (apolloLoadLoop
        (fun n => if n = "app" then .ok ['x'] else .error "down")
        (fun _ => .ok [("k", .vStr "v")])
        [{ Namespace := "app", Format := "properties" }] [] [] =
      apolloLoadLoop
        (fun n => if n = "app" then .ok ['x'] else .error "down")
        (fun _ => .ok [("k", .vStr "v")]) [] [("app", ['x'])]
        [("app", .vMap [("k", .vStr "v")])]) ∧
    (apolloLoadLoop
        (fun n => if n = "app" then .ok ['x'] else .error "down")
        (fun _ => .ok [("k", .vStr "v")])
        [{ Namespace := "db", Format := "properties" }] [("db", ['c'])] [] =
      apolloLoadLoop
        (fun n => if n = "app" then .ok ['x'] else .error "down")
        (fun _ => .ok [("k", .vStr "v")]) [] [("db", ['c'])]
        [("db", .vMap [("k", .vStr "v")])]) ∧
    (apolloLoadLoop
        (fun n => if n = "app" then .ok ['x'] else .error "down")
        (fun _ => .ok [("k", .vStr "v")])
        [{ Namespace := "db", Format := "properties" }] [] [] =
      (.error "ApolloMultiSource: namespace db load failed: down", [])) := by
  refine ⟨?_, ?_, ?_⟩
  · exact ((apollo_fallback_cache
      (fun n => if n = "app" then .ok ['x'] else .error "down")
      (fun _ => .ok [("k", .vStr "v")])
      { Namespace := "app", Format := "properties" } [] [] []).1
      ['x'] [("k", .vStr "v")] (by rfl) (by rfl)).1
  · exact (apollo_fallback_cache
      (fun n => if n = "app" then .ok ['x'] else .error "down")
      (fun _ => .ok [("k", .vStr "v")])
      { Namespace := "db", Format := "properties" } [] [("db", ['c'])] []).2.1
      "down" ['c'] [("k", .vStr "v")] (by rfl) (by rfl) (by rfl)
  · exact (apollo_fallback_cache
      (fun n => if n = "app" then .ok ['x'] else .error "down")
      (fun _ => .ok [("k", .vStr "v")])
      { Namespace := "db", Format := "properties" } [] [] []).2.2.1
      "down" (by rfl) (by rfl)

end GoConfig